import Mathlib

/-!
Verification of the plow Debian-repository manager core against its
natural-language specification.

Go strings are modelled as lists of byte values (`List Nat`, each entry the
value of one byte); the sources index strings byte-wise throughout, and all
inputs exercised here are ASCII.  Machine integers (`int`, `int64`) are
modelled as `Int` with the overflow/clamping behaviour of the standard
library made explicit where the source relies on it.
-/

namespace Plow

/-- Byte list of an ASCII string literal (each char is one byte). -/
def bstr (s : String) : List Nat := s.data.map Char.toNat

/-- `2^63 - 1`, the largest value of Go `int64` (and of `int` on 64-bit). -/
def maxInt64 : Nat := 9223372036854775807

/-- `unicode.IsDigit(rune(b))` for a byte `b`: true exactly on ASCII 0-9
(no other code point below 256 is in Unicode category Nd). -/
def isDigitB (c : Nat) : Bool := 48 ≤ c && c ≤ 57

/-! ## Version comparator (internal/deb/version.go) -/

/-- `charOrder` from version.go: sort order of a byte in Debian version
comparison.  `~` (126) sorts below everything, ASCII letters keep their code,
every other byte is pushed above the letters by adding 256. -/
def charOrder (c : Nat) : Int :=
  if c = 126 then -1
  else if 65 ≤ c ∧ c ≤ 90 then (c : Int)
  else if 97 ≤ c ∧ c ≤ 122 then (c : Int)
  else (c : Int) + 256

/-- `extractNonDigits`: split off the maximal leading run of non-digit bytes. -/
def extractNonDigits (s : List Nat) : List Nat × List Nat :=
  (s.takeWhile (fun c => !isDigitB c), s.dropWhile (fun c => !isDigitB c))

/-- `extractDigits`: split off the maximal leading run of digit bytes. -/
def extractDigits (s : List Nat) : List Nat × List Nat :=
  (s.takeWhile (fun c => isDigitB c), s.dropWhile (fun c => isDigitB c))

/-- `compareNonDigits` in the source is an index loop over
`i < len(a) || i < len(b)` comparing `charOrder` values, where a position past
the end of a string contributes order value `0`; it is rendered here as the
equivalent recursion (the one-sided clauses are the loop once one string is
exhausted, with the missing side contributing `0`). -/
def cndLeft : List Nat → Int
  | [] => 0
  | a :: as => if charOrder a = 0 then cndLeft as
               else if charOrder a < 0 then -1 else 1

/-- One-sided scan of `compareNonDigits` when the first string is exhausted:
position value `0` against `charOrder b`. -/
def cndRight : List Nat → Int
  | [] => 0
  | b :: bs => if charOrder b = 0 then cndRight bs
               else if 0 < charOrder b then -1 else 1

/-- `compareNonDigits` from version.go (see `cndLeft`/`cndRight`). -/
def compareNonDigits : List Nat → List Nat → Int
  | [], b => cndRight b
  | a, [] => cndLeft a
  | a :: as, b :: bs =>
      if charOrder a = charOrder b then compareNonDigits as bs
      else if charOrder a < charOrder b then -1 else 1

/-- Value of a digit-byte string read as a base-10 number (leading zeros
allowed; empty = 0). -/
def digitsVal (s : List Nat) : Nat := s.foldl (fun acc d => acc * 10 + (d - 48)) 0

/-- `strconv.ParseInt(s, 10, 64)` with its error discarded, on the inputs
reachable from `compareDigits` (runs of digit bytes, possibly empty after
trimming, then defaulted to "0"): a syntactically valid unsigned decimal
parses to its value clamped to `MaxInt64` (on range error ParseInt returns
the clamped value); anything else is a syntax error and yields 0. -/
def goParseInt64 (s : List Nat) : Int :=
  if s ≠ [] ∧ s.all (fun c => isDigitB c) then min (digitsVal s) maxInt64 else 0

/-- `compareDigits` from version.go: trim leading zeros, default empty to
"0", parse with the error discarded, compare numerically. -/
def compareDigits (a b : List Nat) : Int :=
  let a := a.dropWhile (fun c => c = 48)
  let b := b.dropWhile (fun c => c = 48)
  let a := if a = [] then [48] else a
  let b := if b = [] then [48] else b
  let numA := goParseInt64 a
  let numB := goParseInt64 b
  if numA < numB then -1
  else if numB < numA then 1
  else 0

/-- One iteration of `compareVersionPart` consumes the leading non-digit run
and then the leading digit run of each side.  `restPart s` is what remains of
`s` afterwards. -/
def restPart (s : List Nat) : List Nat :=
  (s.dropWhile (fun c => !isDigitB c)).dropWhile (fun c => isDigitB c)

/-- The `for len(a) > 0 || len(b) > 0` loop of `compareVersionPart`,
translated with explicit fuel.  Each iteration strictly consumes at least one
byte of every nonempty side, so `a.length + b.length + 1` fuel (supplied by
`compareVersionPart`) always suffices; the fuel-0 clause is never reached
from there. -/
def cvpAux : Nat → List Nat → List Nat → Int
  | 0, _, _ => 0
  | fuel + 1, a, b =>
      if a = [] ∧ b = [] then 0
      else
        let cnd := compareNonDigits (extractNonDigits a).1 (extractNonDigits b).1
        if cnd ≠ 0 then cnd
        else
          let ra := (extractNonDigits a).2
          let rb := (extractNonDigits b).2
          let cd := compareDigits (extractDigits ra).1 (extractDigits rb).1
          if cd ≠ 0 then cd
          else cvpAux fuel (extractDigits ra).2 (extractDigits rb).2

/-- `compareVersionPart` from version.go: alternately compare non-digit and
digit runs until both strings are exhausted. -/
def compareVersionPart (a b : List Nat) : Int :=
  cvpAux (a.length + b.length + 1) a b

/-! ## Version parsing (deb.go, `versionRegex` and `ParseVersion`)

`versionRegex` is the anchored Go (RE2, leftmost-first) pattern
`(?:(\d+):)?([^-]+)(?:-(.+))?` .  Its deterministic match behaviour:

* the optional epoch group participates exactly when the maximal leading
  digit run is nonempty and followed by a colon (a shorter digit run is never
  followed by a colon, so no other backtracking into `\d+` exists);
* `([^-]+)` greedily takes everything up to the first hyphen;
* `(?:-(.+))?` then takes the whole remainder provided it is nonempty and
  free of newline bytes (`.` does not match `\n`); if the remainder after the
  hyphen cannot be matched, no shorter `[^-]+` can help (the next byte is not
  a hyphen), so the whole alternative fails;
* if the epoch alternative fails further right, the engine retries with the
  epoch group absent on the full string;
* if nothing matches, `ParseVersion` returns `(0, version, "")`. -/

/-- Match `([^-]+)(?:-(.+))?` against the whole of `t` (see above). -/
def matchBody (t : List Nat) : Option (List Nat × List Nat) :=
  let u := t.takeWhile (fun c => c ≠ 45)
  let rest := t.dropWhile (fun c => c ≠ 45)
  if u = [] then none
  else
    match rest with
    | [] => some (u, [])
    | _ :: rev => if rev ≠ [] ∧ rev.contains 10 = false then some (u, rev) else none

/-- `strconv.Atoi` on the digit-only epoch group (64-bit `int`): the value
clamped to `MaxInt64` (the range error is discarded by `ParseVersion`). -/
def goAtoi (ds : List Nat) : Int := min (digitsVal ds) maxInt64

/-- `ParseVersion` from deb.go: `(epoch, upstream, revision)` per
`versionRegex`; on no match, `(0, version, "")`. -/
def ParseVersion (s : List Nat) : Int × List Nat × List Nat :=
  let ds := s.takeWhile (fun c => isDigitB c)
  let rest1 := s.dropWhile (fun c => isDigitB c)
  if ds ≠ [] ∧ rest1.head? = some 58 then
    match matchBody rest1.tail with
    | some (u, r) => (goAtoi ds, u, r)
    | none =>
        match matchBody s with
        | some (u, r) => (0, u, r)
        | none => (0, s, [])
  else
    match matchBody s with
    | some (u, r) => (0, u, r)
    | none => (0, s, [])

/-- `Compare` from version.go: epochs as integers, then the upstream parts,
then the revisions. -/
def Compare (a b : List Nat) : Int :=
  let pa := ParseVersion a
  let pb := ParseVersion b
  if pa.1 ≠ pb.1 then (if pa.1 < pb.1 then -1 else 1)
  else
    let cmp := compareVersionPart pa.2.1 pb.2.1
    if cmp ≠ 0 then cmp
    else compareVersionPart pa.2.2 pb.2.2

/-! ## Package records and the control-file parser (internal/deb/deb.go) -/

/-- `deb.Package`: metadata extracted from a .deb file, fields in source
order.  String fields are byte lists, `Size` (bytes) and `InstalledSize`
(KB) are `int64`. -/
structure Package where
  Name : List Nat
  Version : List Nat
  Architecture : List Nat
  Maintainer : List Nat
  Description : List Nat
  Depends : List Nat
  PreDepends : List Nat
  Recommends : List Nat
  Suggests : List Nat
  Conflicts : List Nat
  Provides : List Nat
  Replaces : List Nat
  Section : List Nat
  Priority : List Nat
  Homepage : List Nat
  Size : Int
  InstalledSize : Int
  Filename : List Nat
  MD5sum : List Nat
  SHA1 : List Nat
  SHA256 : List Nat
deriving DecidableEq, Repr

/-- The zero value `&Package{}` that `parseControl` starts from. -/
def emptyPackage : Package :=
  ⟨[], [], [], [], [], [], [], [], [], [], [], [], [], [], [], 0, 0, [], [], [], []⟩

/-- `unicode.IsSpace` on one byte: tab, LF, VT, FF, CR, space.  (The
multi-byte Unicode white-space code points of Go `strings.TrimSpace` do not
arise on the ASCII values considered in the theorems below.) -/
def isWSB (c : Nat) : Bool := c = 9 || c = 10 || c = 11 || c = 12 || c = 13 || c = 32

/-- `strings.TrimSpace` (byte level; see `isWSB`). -/
def trimSpace (s : List Nat) : List Nat :=
  ((s.dropWhile isWSB).reverse.dropWhile isWSB).reverse

/-- `bufio.ScanLines` drops one trailing carriage return from each line. -/
def dropCR (l : List Nat) : List Nat := if l.getLast? = some 13 then l.dropLast else l

/-- Accumulator loop of the line scanner: split at each LF; a final unclosed
chunk is emitted, a trailing LF does not produce an extra empty line. -/
def goSplit : List Nat → List Nat → List (List Nat)
  | cur, [] => if cur = [] then [] else [dropCR cur]
  | cur, c :: cs => if c = 10 then dropCR cur :: goSplit [] cs else goSplit (cur ++ [c]) cs

/-- The sequence of lines produced by `bufio.Scanner` with `ScanLines` over
`s` (the scanner's 64 KiB token limit is not modelled; the round-trip
theorem keeps every line far below it). -/
def splitLines (s : List Nat) : List (List Nat) := goSplit [] s

/-- `strconv.ParseInt(s, 10, 64)` with its error observed (`none` = error):
an optionally signed decimal in 64-bit range parses; a range or syntax
error yields `none` (the caller leaves the field unchanged then). -/
def goParseInt64E (s : List Nat) : Option Int :=
  if s.head? = some 45 then
    (if s.tail ≠ [] ∧ s.tail.all (fun c => isDigitB c) = true ∧
        digitsVal s.tail ≤ 9223372036854775808 then
      some (-(digitsVal s.tail : Int))
    else none)
  else if s.head? = some 43 then
    (if s.tail ≠ [] ∧ s.tail.all (fun c => isDigitB c) = true ∧ digitsVal s.tail ≤ maxInt64 then
      some ((digitsVal s.tail : Int))
    else none)
  else
    (if s ≠ [] ∧ s.all (fun c => isDigitB c) = true ∧ digitsVal s ≤ maxInt64 then
      some ((digitsVal s : Int))
    else none)

/-- `saveField` from `parseControl`: store the accumulated value (trimmed)
into the record field selected by the current field name; unknown fields
(among them Filename, Size, MD5sum, SHA1, SHA256) are ignored;
`Installed-Size` is stored only when `strconv.ParseInt` succeeds. -/
def applySave (curF curV : List Nat) (pkg : Package) : Package :=
  if curF = [] then pkg
  else
    let value := trimSpace curV
    if curF = bstr "Package" then { pkg with Name := value }
    else if curF = bstr "Version" then { pkg with Version := value }
    else if curF = bstr "Architecture" then { pkg with Architecture := value }
    else if curF = bstr "Maintainer" then { pkg with Maintainer := value }
    else if curF = bstr "Description" then { pkg with Description := value }
    else if curF = bstr "Depends" then { pkg with Depends := value }
    else if curF = bstr "Pre-Depends" then { pkg with PreDepends := value }
    else if curF = bstr "Recommends" then { pkg with Recommends := value }
    else if curF = bstr "Suggests" then { pkg with Suggests := value }
    else if curF = bstr "Conflicts" then { pkg with Conflicts := value }
    else if curF = bstr "Provides" then { pkg with Provides := value }
    else if curF = bstr "Replaces" then { pkg with Replaces := value }
    else if curF = bstr "Section" then { pkg with Section := value }
    else if curF = bstr "Priority" then { pkg with Priority := value }
    else if curF = bstr "Homepage" then { pkg with Homepage := value }
    else if curF = bstr "Installed-Size" then
      match goParseInt64E value with
      | some n => { pkg with InstalledSize := n }
      | none => pkg
    else pkg

/-- Scanner state of `parseControl`: current field name, accumulated value,
record built so far. -/
structure PCState where
  curF : List Nat
  curV : List Nat
  pkg : Package
deriving Repr

/-- One line of the `parseControl` scan: a line starting with space or tab
continues the current value (with an embedded newline); otherwise the
previous field is saved and, when the line has a colon at a positive index,
the new field starts (with the remainder after the colon trimmed); a line
without such a colon leaves the current field and value unchanged. -/
def pcLine (st : PCState) (line : List Nat) : PCState :=
  if line ≠ [] ∧ (line.head? = some 32 ∨ line.head? = some 9) then
    { st with curV := st.curV ++ 10 :: line }
  else
    let pkg := applySave st.curF st.curV st.pkg
    let idx := line.findIdx (fun c => c = 58)
    if 0 < idx ∧ idx < line.length then
      { curF := line.take idx,
        curV := if idx + 1 < line.length then trimSpace (line.drop (idx + 1)) else [],
        pkg := pkg }
    else
      { st with pkg := pkg }

/-- `parseControl` from deb.go: scan lines, accumulate fields, save the last
field, then require the Package, Version and Architecture fields. -/
def parseControl (data : List Nat) : Except (List Nat) Package :=
  let st := (splitLines data).foldl pcLine ⟨[], [], emptyPackage⟩
  let pkg := applySave st.curF st.curV st.pkg
  if pkg.Name = [] then Except.error (bstr "missing Package field")
  else if pkg.Version = [] then Except.error (bstr "missing Version field")
  else if pkg.Architecture = [] then Except.error (bstr "missing Architecture field")
  else Except.ok pkg

/-- Decimal digits of `n`, most significant first (`n` itself bounds the
recursion depth). -/
def natDigitsAux : Nat → Nat → List Nat
  | 0, _ => []
  | fuel + 1, n => if n < 10 then [48 + n] else natDigitsAux fuel (n / 10) ++ [48 + n % 10]

/-- Decimal representation of a natural number. -/
def natDigits (n : Nat) : List Nat := natDigitsAux (n + 1) n

/-- `strconv.FormatInt(i, 10)`. -/
def formatInt (i : Int) : List Nat :=
  if i < 0 then 45 :: natDigits (-i).toNat else natDigits i.toNat

/-- `writeField` from `ControlString`: emit `name: value\n` unless the value
is empty. -/
def writeField (nm v : List Nat) : List Nat :=
  if v = [] then [] else nm ++ 58 :: 32 :: (v ++ [10])

/-- The field name/value sequence `ControlString` emits, in source order.
The `Installed-Size` entry is rendered only when positive (its pair value is
empty otherwise, which `writeField` skips, matching the source's guard). -/
def allPairs (p : Package) : List (List Nat × List Nat) :=
  [(bstr "Package", p.Name),
   (bstr "Version", p.Version),
   (bstr "Architecture", p.Architecture),
   (bstr "Maintainer", p.Maintainer),
   (bstr "Installed-Size", if 0 < p.InstalledSize then formatInt p.InstalledSize else []),
   (bstr "Pre-Depends", p.PreDepends),
   (bstr "Depends", p.Depends),
   (bstr "Recommends", p.Recommends),
   (bstr "Suggests", p.Suggests),
   (bstr "Conflicts", p.Conflicts),
   (bstr "Provides", p.Provides),
   (bstr "Replaces", p.Replaces),
   (bstr "Section", p.Section),
   (bstr "Priority", p.Priority),
   (bstr "Homepage", p.Homepage),
   (bstr "Filename", p.Filename),
   (bstr "Size", formatInt p.Size),
   (bstr "MD5sum", p.MD5sum),
   (bstr "SHA1", p.SHA1),
   (bstr "SHA256", p.SHA256),
   (bstr "Description", p.Description)]

/-- `ControlString` from deb.go: concatenation of the `writeField` emissions
in source order. -/
def ControlString (p : Package) : List Nat :=
  (allPairs p).foldr (fun pr acc => writeField pr.1 pr.2 ++ acc) []

/-- `strings.HasSuffix`. -/
def hasSuffix (s pat : List Nat) : Bool := pat.isSuffixOf s

/-- The error taxonomy of the extractor relevant to the claims: a dedicated
unsupported-compression failure (the fixed message of
`extractControlWithCmd`), wrapped I/O failures, and the missing-control
failure. -/
inductive DebError where
  | unsupportedCompression
  | ioError (msg : List Nat)
  | controlNotFound
deriving DecidableEq, Repr

/-- Message text carried by each error (the unsupported-compression message
is the fixed string `extractControlWithCmd` returns). -/
def debErrorMessage : DebError → List Nat
  | DebError.unsupportedCompression => bstr "xz/zstd decompression not implemented - use gzip"
  | DebError.ioError m => m
  | DebError.controlNotFound => bstr "control file not found in tar"

/-- `extractControl` from deb.go: dispatch on the compression suffix of the
ar member name.  The `.gz` and uncompressed-tar branches decompress real
bytes and are supplied as parameters (`gzResult`, `plainResult`); the `.xz`
and `.zst` branches write the member to a temporary file and call
`extractControlWithCmd`, which unconditionally returns the
unsupported-compression error, so no record can be produced there. -/
def extractControl (archiveName : List Nat)
    (gzResult plainResult : Except DebError (List Nat)) : Except DebError (List Nat) :=
  if hasSuffix archiveName (bstr ".gz") then gzResult
  else if hasSuffix archiveName (bstr ".xz") then Except.error DebError.unsupportedCompression
  else if hasSuffix archiveName (bstr ".zst") then Except.error DebError.unsupportedCompression
  else plainResult

/-! ## Repository pruner and indexer (internal/repo/prune.go, repo.go)

The on-disk pool is modelled as the list of regular files `filepath.Walk`
visits, in walk order; each entry carries its path and, for files
`deb.Parse` would accept, the parsed record (`none` marks a file whose
parse fails, which aborts the surrounding bulk operation).  Directories are
not part of the file model: `cleanEmptyDirs` guards every removal with
`info.IsDir()` and therefore never touches a regular file. -/

structure PoolEntry where
  path : List Nat
  meta : Option Package
deriving DecidableEq, Repr

/-- `packageFile` from prune.go. -/
structure packageFile where
  Path : List Nat
  Version : List Nat
deriving DecidableEq, Repr

/-- Inner loop of `sortPackageFiles` for a fixed outer index: scan the tail,
swapping the current front element with any later element that compares
newer; returns the final front element and the tail left behind (the list
rendering of the index/swap loop on the slice). -/
def selMax : packageFile → List packageFile → packageFile × List packageFile
  | cur, [] => (cur, [])
  | cur, y :: ys =>
      if Compare cur.Version y.Version < 0 then
        let r := selMax y ys
        (r.1, cur :: r.2)
      else
        let r := selMax cur ys
        (r.1, y :: r.2)

/-- Outer loop of `sortPackageFiles`; the fuel is the list length (each pass
fixes one position, and `selMax` preserves the tail length). -/
def sortGo : Nat → List packageFile → List packageFile
  | 0, l => l
  | _ + 1, [] => []
  | fuel + 1, x :: xs =>
      let r := selMax x xs
      r.1 :: sortGo fuel r.2

/-- `sortPackageFiles` from prune.go: exchange sort, newest version first. -/
def sortPackageFiles (files : List packageFile) : List packageFile :=
  sortGo files.length files

structure PruneOptions where
  KeepVersions : Int
  DryRun : Bool
deriving DecidableEq, Repr

structure PruneResult where
  Deleted : List (List Nat)
  Kept : List (List Nat)
deriving DecidableEq, Repr

/-- The collection pass of `Prune`'s pool walk: keep `.deb` files, abort on
the first file whose parse fails, key each survivor by
`pkg.Name + "_" + pkg.Architecture` (95 is the underscore byte). -/
def collectDebs : List PoolEntry → Except (List Nat) (List (List Nat × packageFile))
  | [] => Except.ok []
  | e :: es =>
      if hasSuffix e.path (bstr ".deb") = false then collectDebs es
      else
        match e.meta with
        | none => Except.error e.path
        | some pkg =>
            match collectDebs es with
            | Except.error p => Except.error p
            | Except.ok rest =>
                Except.ok ((pkg.Name ++ 95 :: pkg.Architecture, ⟨e.path, pkg.Version⟩) :: rest)

/-- Append one keyed file to the group map (modelled as an association list
in first-insertion key order; the claims below only depend on the kept and
deleted lists as sets, so the randomised Go map iteration order is
represented by this fixed order). -/
def addGroup : List (List Nat × List packageFile) → List Nat → packageFile →
    List (List Nat × List packageFile)
  | [], k, pf => [(k, [pf])]
  | (k0, l) :: gs, k, pf =>
      if k0 = k then (k0, l ++ [pf]) :: gs else (k0, l) :: addGroup gs k pf

def groupPackages (l : List (List Nat × packageFile)) : List (List Nat × List packageFile) :=
  l.foldl (fun gs kv => addGroup gs kv.1 kv.2) []

/-- `cleanEmptyDirs` on the files-only pool model: the source guards every
`os.Remove` with `info.IsDir()`, so regular files pass through untouched. -/
def cleanEmptyDirs (files : List PoolEntry) : List PoolEntry := files

/-- `Prune` from prune.go on the pool model: default the keep count, walk
and group, keep the first `keepCount` of each group sorted newest-first and
delete the rest (unless `DryRun`), then clean directories.  Returns the
result lists together with the regular files remaining on disk. -/
def Prune (opts : PruneOptions) (pool : List PoolEntry) :
    Except (List Nat) (PruneResult × List PoolEntry) :=
  let keep := if opts.KeepVersions < 1 then 5 else opts.KeepVersions
  match collectDebs pool with
  | Except.error p => Except.error p
  | Except.ok entries =>
      let groups := groupPackages entries
      let kept := groups.foldr
        (fun g acc => ((sortPackageFiles g.2).take keep.toNat).map packageFile.Path ++ acc) []
      let deleted := groups.foldr
        (fun g acc => ((sortPackageFiles g.2).drop keep.toNat).map packageFile.Path ++ acc) []
      let remaining :=
        if opts.DryRun then pool
        else cleanEmptyDirs (pool.filter (fun e => !(deleted.contains e.path)))
      Except.ok (⟨deleted, kept⟩, remaining)

/-- Go string `<` (byte-wise lexicographic order). -/
def lexLt : List Nat → List Nat → Bool
  | [], [] => false
  | [], _ :: _ => true
  | _ :: _, [] => false
  | a :: as, b :: bs => if a < b then true else if b < a then false else lexLt as bs

/-- The `less` closure of `scanPool`'s `sort.Slice`: name ascending, then
version descending. -/
def scanLess (x y : Package) : Bool :=
  if x.Name = y.Name then decide (0 < Compare x.Version y.Version) else lexLt x.Name y.Name

/-- Collection pass of `scanPool`: keep `.deb` files, abort on a failing
parse, filter to the target architecture or "all", record the pool-relative
path in `Filename`. -/
def scanCollect (arch : List Nat) : List PoolEntry → Except (List Nat) (List Package)
  | [] => Except.ok []
  | e :: es =>
      if hasSuffix e.path (bstr ".deb") = false then scanCollect arch es
      else
        match e.meta with
        | none => Except.error e.path
        | some pkg =>
            if pkg.Architecture ≠ arch ∧ pkg.Architecture ≠ bstr "all" then scanCollect arch es
            else
              match scanCollect arch es with
              | Except.error p => Except.error p
              | Except.ok rest => Except.ok ({ pkg with Filename := e.path } :: rest)

/-- `scanPool` from repo.go: collect, then sort.  `sort.Slice` promises a
permutation ordered by the `less` function; it is modelled by insertion sort
over the non-strict relation "not greater". -/
def scanPool (arch : List Nat) (pool : List PoolEntry) : Except (List Nat) (List Package) :=
  match scanCollect arch pool with
  | Except.error p => Except.error p
  | Except.ok pkgs => Except.ok (pkgs.insertionSort (fun x y => scanLess y x = false))

/-- Claim C6 reads the grouping key as the PAIR (name, architecture); this
spec-side variant of the deleted-list computation groups by that pair
(everything else as in `Prune`), for comparison with the code's
concatenated-string key. -/
def collectDebsPair : List PoolEntry →
    Except (List Nat) (List ((List Nat × List Nat) × packageFile))
  | [] => Except.ok []
  | e :: es =>
      if hasSuffix e.path (bstr ".deb") = false then collectDebsPair es
      else
        match e.meta with
        | none => Except.error e.path
        | some pkg =>
            match collectDebsPair es with
            | Except.error p => Except.error p
            | Except.ok rest =>
                Except.ok (((pkg.Name, pkg.Architecture), ⟨e.path, pkg.Version⟩) :: rest)

def addGroupPair : List ((List Nat × List Nat) × List packageFile) → (List Nat × List Nat) →
    packageFile → List ((List Nat × List Nat) × List packageFile)
  | [], k, pf => [(k, [pf])]
  | (k0, l) :: gs, k, pf =>
      if k0 = k then (k0, l ++ [pf]) :: gs else (k0, l) :: addGroupPair gs k pf

/-- Deleted-path list under pair-keyed grouping (the claim's reading). -/
def prunePairSpecDeleted (opts : PruneOptions) (pool : List PoolEntry) :
    Except (List Nat) (List (List Nat)) :=
  let keep := if opts.KeepVersions < 1 then 5 else opts.KeepVersions
  match collectDebsPair pool with
  | Except.error p => Except.error p
  | Except.ok entries =>
      let groups := entries.foldl (fun gs kv => addGroupPair gs kv.1 kv.2) []
      Except.ok (groups.foldr
        (fun g acc => ((sortPackageFiles g.2).drop keep.toNat).map packageFile.Path ++ acc) [])

/-! ## Concrete example data used by witnesses and counterexamples -/

/-- A record with the given name, version and architecture and no other
fields. -/
def mkPkg (n v a : String) : Package :=
  { emptyPackage with Name := bstr n, Version := bstr v, Architecture := bstr a }

/-- The prune scenario pool of the spec: three versions of `pkg` for amd64,
in walk order. -/
def scenarioPool : List PoolEntry :=
  [⟨bstr "pool/main/p/pkg/pkg_1.0_amd64.deb", some (mkPkg "pkg" "1.0" "amd64")⟩,
   ⟨bstr "pool/main/p/pkg/pkg_2.0_amd64.deb", some (mkPkg "pkg" "2.0" "amd64")⟩,
   ⟨bstr "pool/main/p/pkg/pkg_1.5_amd64.deb", some (mkPkg "pkg" "1.5" "amd64")⟩]

/-- Two packages with distinct (name, architecture) pairs whose
concatenated keys collide: ("a", "b_c") and ("a_b", "c") both key as
"a_b_c". -/
def collidePool : List PoolEntry :=
  [⟨bstr "pool/main/a/a/a_1.0_b-c.deb", some (mkPkg "a" "1.0" "b_c")⟩,
   ⟨bstr "pool/main/a/a_b/a_b_2.0_c.deb", some (mkPkg "a_b" "2.0" "c")⟩]

/-- A fully populated record for the round-trip counterexample: digests,
size and pool filename are all non-empty. -/
def exPkg : Package :=
  { emptyPackage with
      Name := bstr "a", Version := bstr "1", Architecture := bstr "m",
      Maintainer := bstr "mnt", Description := bstr "d",
      Size := 7, InstalledSize := 3,
      Filename := bstr "pool/main/a/a/a_1_m.deb",
      MD5sum := bstr "m5", SHA1 := bstr "s1", SHA256 := bstr "h2" }

/-- A value is clean when it is ASCII, stable under `TrimSpace`, single-line
and of ordinary size (far below the scanner's 64 KiB line limit). -/
def CleanValue (v : List Nat) : Prop :=
  v.all (fun c => c < 128) = true ∧ trimSpace v = v ∧ 10 ∉ v ∧ v.length ≤ 60000

/-- A record is well-formed for the round trip when its three mandatory
fields are clean and non-empty, every other free-text field is clean, and
the installed size is a non-negative `int64` value. -/
def WellFormed (p : Package) : Prop :=
  p.Name ≠ [] ∧ CleanValue p.Name ∧
  p.Version ≠ [] ∧ CleanValue p.Version ∧
  p.Architecture ≠ [] ∧ CleanValue p.Architecture ∧
  CleanValue p.Maintainer ∧ CleanValue p.Description ∧
  CleanValue p.Depends ∧ CleanValue p.PreDepends ∧
  CleanValue p.Recommends ∧ CleanValue p.Suggests ∧
  CleanValue p.Conflicts ∧ CleanValue p.Provides ∧
  CleanValue p.Replaces ∧ CleanValue p.Section ∧
  CleanValue p.Priority ∧ CleanValue p.Homepage ∧
  CleanValue p.Filename ∧ CleanValue p.MD5sum ∧
  CleanValue p.SHA1 ∧ CleanValue p.SHA256 ∧
  0 ≤ p.InstalledSize ∧ p.InstalledSize ≤ (maxInt64 : Int)

instance {ε α : Type} [DecidableEq ε] [DecidableEq α] : DecidableEq (Except ε α) := fun x y =>
  match x, y with
  | Except.ok a, Except.ok b =>
      if h : a = b then isTrue (by rw [h]) else isFalse (by simp [h])
  | Except.error a, Except.error b =>
      if h : a = b then isTrue (by rw [h]) else isFalse (by simp [h])
  | Except.ok _, Except.error _ => isFalse (fun h => Except.noConfusion h)
  | Except.error _, Except.ok _ => isFalse (fun h => Except.noConfusion h)

instance (v : List Nat) : Decidable (CleanValue v) := by
  unfold CleanValue
  infer_instance

instance (p : Package) : Decidable (WellFormed p) := by
  unfold WellFormed
  infer_instance

/-! ## Supporting lemmas -/

theorem digitsVal_cons (c : Nat) (t : List Nat) :
    digitsVal (c :: t) = t.foldl (fun acc d => acc * 10 + (d - 48)) (c - 48) := by
  simp [digitsVal, List.foldl]

theorem digitsVal_dropZeros (a : List Nat) :
    digitsVal (a.dropWhile (fun c => c = 48)) = digitsVal a := by
  induction a with
  | nil => rfl
  | cons c t ih =>
      by_cases h : c = 48
      · subst h
        simpa [List.dropWhile, digitsVal_cons] using ih
      · simp [List.dropWhile, h]

theorem all_dropWhile (p q : Nat → Bool) (a : List Nat) (h : a.all p = true) :
    (a.dropWhile q).all p = true := by
  induction a with
  | nil => rfl
  | cons c t ih =>
      simp only [List.all_cons, Bool.and_eq_true] at h
      by_cases hq : q c
      · simpa [List.dropWhile, hq] using ih h.2
      · simpa [List.dropWhile, hq, List.all_cons, h.1] using h.2

theorem takeWhile_append_stop (p : Nat → Bool) (u r : List Nat) (c : Nat)
    (hu : ∀ x ∈ u, p x = true) (hc : p c = false) :
    (u ++ c :: r).takeWhile p = u ∧ (u ++ c :: r).dropWhile p = c :: r := by
  induction u with
  | nil => simp [List.takeWhile, List.dropWhile, hc]
  | cons a as ih =>
      have ha : p a = true := hu a (by simp)
      have := ih (fun x hx => hu x (by simp [hx]))
      simp [List.takeWhile, List.dropWhile, ha, this.1, this.2]

theorem dropWhile_append_of_all (p : Nat → Bool) (u v : List Nat)
    (hu : ∀ x ∈ u, p x = true) :
    (u ++ v).dropWhile p = v.dropWhile p := by
  induction u with
  | nil => rfl
  | cons a as ih =>
      have ha : p a = true := hu a (by simp)
      simpa [List.dropWhile, ha] using ih (fun x hx => hu x (by simp [hx]))

theorem dropWhile_head_mem (p : Nat → Bool) (u : List Nat) (hu : ¬ u.all p = true) :
    ∃ c t, u.dropWhile p = c :: t ∧ c ∈ u ∧ p c = false := by
  induction u with
  | nil => simp at hu
  | cons a as ih =>
      by_cases ha : p a
      · have : ¬ as.all p = true := by
          intro h; exact hu (by simp [List.all_cons, ha, h])
        obtain ⟨c, t, h1, h2, h3⟩ := ih this
        exact ⟨c, t, by simpa [List.dropWhile, ha] using h1, by simp [h2], h3⟩
      · exact ⟨a, as, by simp [List.dropWhile, ha], by simp, by simpa using ha⟩

theorem dropWhile_append_of_not_all (p : Nat → Bool) (u v : List Nat)
    (hu : ¬ u.all p = true) :
    (u ++ v).dropWhile p = u.dropWhile p ++ v := by
  induction u with
  | nil => simp at hu
  | cons a as ih =>
      by_cases ha : p a
      · have : ¬ as.all p = true := by
          intro h; exact hu (by simp [List.all_cons, ha, h])
        simpa [List.dropWhile, ha] using ih this
      · simp [List.dropWhile, ha]

/-! ## C5: Compare "1.0.0" vs "1.0" -/

/-- C5: `Compare("1.0.0", "1.0")` returns 1: the trailing ".0" component of
the longer version outranks the exhausted shorter version, because after the
common prefix is consumed the remaining non-digit run "." has positive
`charOrder` against the missing side. -/
theorem compare_trailing_zero_component :
    Compare (bstr "1.0.0") (bstr "1.0") = 1 := by decide

/-! ## C3: compareDigits -/

/-- C3 (amended): for digit runs whose numeric values both fit in a signed
64-bit integer, `compareDigits` is the sign of comparing the exact values
(leading zeros stripped, empty treated as zero).  Beyond `2^63 - 1` the
source clamps both sides via `strconv.ParseInt` with the range error
discarded, so the exact comparison is not recovered there. -/
theorem compareDigits_exact_below_int64 (a b : List Nat)
    (ha : a.all (fun c => isDigitB c) = true) (hb : b.all (fun c => isDigitB c) = true)
    (hva : digitsVal a ≤ maxInt64) (hvb : digitsVal b ≤ maxInt64) :
    compareDigits a b =
      (if digitsVal a < digitsVal b then -1
       else if digitsVal b < digitsVal a then 1 else 0) := by
  have key : ∀ (s : List Nat), s.all (fun c => isDigitB c) = true → digitsVal s ≤ maxInt64 →
      goParseInt64 (if s.dropWhile (fun c => c = 48) = [] then [48]
                    else s.dropWhile (fun c => c = 48)) = (digitsVal s : Int) := by
    intro s hs hv
    by_cases h : s.dropWhile (fun c => c = 48) = []
    · have hz : digitsVal s = 0 := by
        rw [← digitsVal_dropZeros s, h]; rfl
      rw [if_pos h, hz]
      decide
    · have hall : (s.dropWhile (fun c => c = 48)).all (fun c => isDigitB c) = true :=
        all_dropWhile _ _ _ hs
      have hval : digitsVal (s.dropWhile (fun c => c = 48)) = digitsVal s :=
        digitsVal_dropZeros s
      simp only [h, if_false, goParseInt64, hval]
      rw [if_pos ⟨h, hall⟩]
      omega
  unfold compareDigits
  simp only [key a ha hva, key b hb hvb]
  by_cases h1 : digitsVal a < digitsVal b
  · rw [if_pos (by exact_mod_cast h1), if_pos h1]
  · rw [if_neg (by exact_mod_cast h1), if_neg h1]
    by_cases h2 : digitsVal b < digitsVal a
    · rw [if_pos (by exact_mod_cast h2), if_pos h2]
    · rw [if_neg (by exact_mod_cast h2), if_neg h2]

/-- Witness for C3 at `a = "007"`, `b = "7"`. -/
theorem compareDigits_exact_below_int64_witness :
    compareDigits (bstr "007") (bstr "7") =
      (if digitsVal (bstr "007") < digitsVal (bstr "7") then -1
       else if digitsVal (bstr "7") < digitsVal (bstr "007") then 1 else 0) :=
  compareDigits_exact_below_int64 _ _ (by decide) (by decide) (by decide) (by decide)

/-- C3 counterexample: two digit runs just above `2^63 - 1` whose exact
values differ, yet `compareDigits` returns 0 because `ParseInt` clamps both
to `MaxInt64` and the range error is discarded. -/
theorem compareDigits_overflow_counterexample :
    compareDigits (bstr "9223372036854775808") (bstr "9223372036854775809") = 0 ∧
    digitsVal (bstr "9223372036854775808") < digitsVal (bstr "9223372036854775809") := by
  constructor
  · decide
  · decide

/-! ## C2: ParseVersion -/

/-- C2 counterexample: `"1.0-2-3"` has two hyphens in its post-epoch part;
the claim says the revision is the substring after the last hyphen ("3"),
but the regex group `([^-]+)` stops at the first hyphen and `(.+)` takes the
whole remainder, so the code returns upstream "1.0" and revision "2-3". -/
theorem parseVersion_last_hyphen_counterexample :
    ParseVersion (bstr "1.0-2-3") ≠ (0, bstr "1.0-2", bstr "3") ∧
    ParseVersion (bstr "1.0-2-3") = (0, bstr "1.0", bstr "2-3") := by
  constructor
  · decide
  · decide

/-- C2 (amended): for a version string whose post-epoch part contains a
hyphen, the revision is everything after the FIRST hyphen and the upstream is
everything between the optional epoch colon and that first hyphen.  Stated
for un-epoched strings `u ++ "-" ++ r` (`u` hyphen-free and colon-free) and
for epoch-bearing strings `d ++ ":" ++ u ++ "-" ++ r` (`d` a nonempty digit
run, `u` hyphen-free), with `r` nonempty and newline-free — the domains on
which `versionRegex` matches with the revision group present — together with
the specific instance `ParseVersion("2:1.0.0-ubuntu1")
= (2, "1.0.0", "ubuntu1")`. -/
theorem parseVersion_first_hyphen :
    (∀ u r : List Nat, u ≠ [] → (∀ x ∈ u, x ≠ 45) → (∀ x ∈ u, x ≠ 58) →
        r ≠ [] → 10 ∉ r → ParseVersion (u ++ 45 :: r) = (0, u, r)) ∧
    (∀ d u r : List Nat, d ≠ [] → (∀ x ∈ d, isDigitB x = true) →
        u ≠ [] → (∀ x ∈ u, x ≠ 45) → r ≠ [] → 10 ∉ r →
        ParseVersion (d ++ 58 :: (u ++ 45 :: r)) = (goAtoi d, u, r)) ∧
    ParseVersion (bstr "2:1.0.0-ubuntu1") = (2, bstr "1.0.0", bstr "ubuntu1") := by
  refine ⟨?_, ?_, by decide⟩
  · intro u r hu hnd hnc hr hrn
    have hbody : matchBody (u ++ 45 :: r) = some (u, r) := by
      have h45 : ∀ x ∈ u, (fun c => decide (c ≠ 45)) x = true := by
        intro x hx; simpa using hnd x hx
      obtain ⟨ht, hd⟩ := takeWhile_append_stop (fun c => decide (c ≠ 45)) u r 45 h45 (by simp)
      simp only [matchBody, ht, hd, hu, if_neg hu]
      simp [hr, hrn]
    unfold ParseVersion
    by_cases hepoch : (u ++ 45 :: r).takeWhile (fun c => isDigitB c) ≠ [] ∧
        ((u ++ 45 :: r).dropWhile (fun c => isDigitB c)).head? = some 58
    · exfalso
      by_cases hall : u.all (fun c => isDigitB c) = true
      · have : (u ++ 45 :: r).dropWhile (fun c => isDigitB c) = 45 :: r := by
          rw [dropWhile_append_of_all _ _ _
            (by intro x hx; exact (List.all_eq_true.mp hall) x hx)]
          simp [List.dropWhile, isDigitB]
        rw [this] at hepoch
        simp at hepoch
      · obtain ⟨c, t, h1, h2, _⟩ := dropWhile_head_mem (fun c => isDigitB c) u hall
        have : (u ++ 45 :: r).dropWhile (fun c => isDigitB c) = c :: (t ++ 45 :: r) := by
          rw [dropWhile_append_of_not_all _ _ _ hall, h1]; rfl
        rw [this] at hepoch
        have := hepoch.2
        simp at this
        exact hnc c h2 this
    · rw [if_neg hepoch, hbody]
  · intro d u r hd hdd hu hnd hr hrn
    have hbody : matchBody (u ++ 45 :: r) = some (u, r) := by
      have h45 : ∀ x ∈ u, (fun c => decide (c ≠ 45)) x = true := by
        intro x hx; simpa using hnd x hx
      obtain ⟨ht, hdp⟩ := takeWhile_append_stop (fun c => decide (c ≠ 45)) u r 45 h45 (by simp)
      simp only [matchBody, ht, hdp, hu, if_neg hu]
      simp [hr, hrn]
    obtain ⟨htw, hdw⟩ := takeWhile_append_stop (fun c => isDigitB c) d (u ++ 45 :: r) 58
      (by intro x hx; exact hdd x hx) (by decide)
    unfold ParseVersion
    rw [htw, hdw]
    rw [if_pos ⟨hd, rfl⟩]
    rw [List.tail_cons, hbody]

/-- Witness for C2: both general parts applied at `"1.0.0-ubuntu1"` and
`"2:1.0.0-ubuntu1"`. -/
theorem parseVersion_first_hyphen_witness :
    ParseVersion (bstr "1.0.0" ++ 45 :: bstr "ubuntu1") = (0, bstr "1.0.0", bstr "ubuntu1") ∧
    ParseVersion (bstr "2" ++ 58 :: (bstr "1.0.0" ++ 45 :: bstr "ubuntu1")) =
      (goAtoi (bstr "2"), bstr "1.0.0", bstr "ubuntu1") :=
  ⟨parseVersion_first_hyphen.1 _ _ (by decide) (by decide) (by decide) (by decide) (by decide),
   parseVersion_first_hyphen.2.1 _ _ _ (by decide) (by decide) (by decide) (by decide)
     (by decide) (by decide)⟩

/-! ## C4: Compare is a strict weak order

The byte order `charOrder` never assigns the value 0 (reserved for a missing
position), and is injective, so two non-digit runs compare equal exactly when
they are identical.  Digit runs compare through the clamped numeric key
`min (digitsVal d) maxInt64`.  `cvpAux` therefore behaves as a lexicographic
comparison of the alternating run decompositions, which is a total preorder.
-/

theorem charOrder_ne_zero (c : Nat) : charOrder c ≠ 0 := by
  unfold charOrder
  split_ifs with h1 h2 h3 <;> omega

theorem charOrder_ge (c : Nat) : -1 ≤ charOrder c := by
  unfold charOrder
  split_ifs with h1 h2 h3 <;> omega

theorem charOrder_inj {a b : Nat} (h : charOrder a = charOrder b) : a = b := by
  unfold charOrder at h
  split_ifs at h <;> omega

theorem cndLeft_cons (a : Nat) (as : List Nat) :
    cndLeft (a :: as) = if charOrder a < 0 then -1 else 1 := by
  simp [cndLeft, charOrder_ne_zero a]

theorem cndRight_cons (b : Nat) (bs : List Nat) :
    cndRight (b :: bs) = if 0 < charOrder b then -1 else 1 := by
  simp [cndRight, charOrder_ne_zero b]

theorem cnd_refl (a : List Nat) : compareNonDigits a a = 0 := by
  induction a with
  | nil => rfl
  | cons c t ih => simp [compareNonDigits, ih]

theorem cnd_eq_zero {a b : List Nat} (h : compareNonDigits a b = 0) : a = b := by
  induction a generalizing b with
  | nil =>
      cases b with
      | nil => rfl
      | cons y ys =>
          rw [show compareNonDigits [] (y :: ys) = cndRight (y :: ys) from rfl,
            cndRight_cons] at h
          split_ifs at h <;> omega
  | cons x xs ih =>
      cases b with
      | nil =>
          rw [show compareNonDigits (x :: xs) [] = cndLeft (x :: xs) from rfl,
            cndLeft_cons] at h
          split_ifs at h <;> omega
      | cons y ys =>
          by_cases hxy : charOrder x = charOrder y
          · rw [show compareNonDigits (x :: xs) (y :: ys)
                = if charOrder x = charOrder y then compareNonDigits xs ys
                  else if charOrder x < charOrder y then -1 else 1 from rfl,
              if_pos hxy] at h
            rw [charOrder_inj hxy, ih h]
          · rw [show compareNonDigits (x :: xs) (y :: ys)
                = if charOrder x = charOrder y then compareNonDigits xs ys
                  else if charOrder x < charOrder y then -1 else 1 from rfl,
              if_neg hxy] at h
            split_ifs at h <;> omega

theorem cnd_antisym (a b : List Nat) : compareNonDigits a b = -(compareNonDigits b a) := by
  induction a generalizing b with
  | nil =>
      cases b with
      | nil => rfl
      | cons y ys =>
          show cndRight (y :: ys) = -(cndLeft (y :: ys))
          rw [cndRight_cons, cndLeft_cons]
          have := charOrder_ne_zero y
          split_ifs <;> omega
  | cons x xs ih =>
      cases b with
      | nil =>
          show cndLeft (x :: xs) = -(cndRight (x :: xs))
          rw [cndRight_cons, cndLeft_cons]
          have := charOrder_ne_zero x
          split_ifs <;> omega
      | cons y ys =>
          show (if charOrder x = charOrder y then compareNonDigits xs ys
                else if charOrder x < charOrder y then -1 else 1)
             = -(if charOrder y = charOrder x then compareNonDigits ys xs
                else if charOrder y < charOrder x then -1 else 1)
          by_cases hxy : charOrder x = charOrder y
          · rw [if_pos hxy, if_pos hxy.symm, ih ys]
          · rw [if_neg hxy, if_neg (show ¬ charOrder y = charOrder x from fun hh => hxy hh.symm)]
            rcases lt_or_gt_of_ne hxy with h | h
            · rw [if_pos h, if_neg (show ¬ charOrder y < charOrder x by omega)]
            · rw [if_neg (show ¬ charOrder x < charOrder y by omega), if_pos h]
              decide

theorem cnd_range (a b : List Nat) :
    compareNonDigits a b = -1 ∨ compareNonDigits a b = 0 ∨ compareNonDigits a b = 1 := by
  induction a generalizing b with
  | nil =>
      cases b with
      | nil => simp [compareNonDigits, cndRight]
      | cons y ys =>
          have e : compareNonDigits [] (y :: ys) = cndRight (y :: ys) := rfl
          rw [e, cndRight_cons]
          split_ifs <;> simp
  | cons x xs ih =>
      cases b with
      | nil =>
          have e : compareNonDigits (x :: xs) [] = cndLeft (x :: xs) := rfl
          rw [e, cndLeft_cons]
          split_ifs <;> simp
      | cons y ys =>
          have e : compareNonDigits (x :: xs) (y :: ys)
              = if charOrder x = charOrder y then compareNonDigits xs ys
                else if charOrder x < charOrder y then -1 else 1 := rfl
          rw [e]
          by_cases hxy : charOrder x = charOrder y
          · rw [if_pos hxy]; exact ih ys
          · rw [if_neg hxy]; split_ifs <;> simp

theorem cnd_trans_neg {a b c : List Nat}
    (h1 : compareNonDigits a b = -1) (h2 : compareNonDigits b c = -1) :
    compareNonDigits a c = -1 := by
  induction a generalizing b c with
  | nil =>
      cases b with
      | nil => simp [compareNonDigits, cndRight] at h1
      | cons y ys =>
          rw [show compareNonDigits [] (y :: ys) = cndRight (y :: ys) from rfl,
            cndRight_cons] at h1
          have hy : 0 < charOrder y := by by_contra h; rw [if_neg h] at h1; omega
          cases c with
          | nil =>
              rw [show compareNonDigits (y :: ys) [] = cndLeft (y :: ys) from rfl,
                cndLeft_cons] at h2
              split_ifs at h2 with h <;> omega
          | cons z zs =>
              rw [show compareNonDigits (y :: ys) (z :: zs)
                    = if charOrder y = charOrder z then compareNonDigits ys zs
                      else if charOrder y < charOrder z then -1 else 1 from rfl] at h2
              have hz : 0 < charOrder z := by
                by_cases hyz : charOrder y = charOrder z
                · omega
                · rw [if_neg hyz] at h2
                  split_ifs at h2 with h <;> omega
              rw [show compareNonDigits [] (z :: zs) = cndRight (z :: zs) from rfl,
                cndRight_cons, if_pos hz]
  | cons x xs ih =>
      cases b with
      | nil =>
          rw [show compareNonDigits (x :: xs) [] = cndLeft (x :: xs) from rfl,
            cndLeft_cons] at h1
          have hx : charOrder x < 0 := by by_contra h; rw [if_neg h] at h1; omega
          cases c with
          | nil => simp [compareNonDigits, cndRight] at h2
          | cons z zs =>
              rw [show compareNonDigits [] (z :: zs) = cndRight (z :: zs) from rfl,
                cndRight_cons] at h2
              have hz : 0 < charOrder z := by by_contra h; rw [if_neg h] at h2; omega
              rw [show compareNonDigits (x :: xs) (z :: zs)
                    = if charOrder x = charOrder z then compareNonDigits xs zs
                      else if charOrder x < charOrder z then -1 else 1 from rfl,
                if_neg (by omega), if_pos (by omega)]
      | cons y ys =>
          cases c with
          | nil =>
              rw [show compareNonDigits (y :: ys) [] = cndLeft (y :: ys) from rfl,
                cndLeft_cons] at h2
              have hy : charOrder y < 0 := by by_contra h; rw [if_neg h] at h2; omega
              rw [show compareNonDigits (x :: xs) (y :: ys)
                    = if charOrder x = charOrder y then compareNonDigits xs ys
                      else if charOrder x < charOrder y then -1 else 1 from rfl] at h1
              have hx : charOrder x < 0 := by
                by_cases hxy : charOrder x = charOrder y
                · omega
                · rw [if_neg hxy] at h1
                  have := charOrder_ge x
                  split_ifs at h1 with h <;> omega
              rw [show compareNonDigits (x :: xs) [] = cndLeft (x :: xs) from rfl,
                cndLeft_cons, if_pos hx]
          | cons z zs =>
              rw [show compareNonDigits (x :: xs) (y :: ys)
                    = if charOrder x = charOrder y then compareNonDigits xs ys
                      else if charOrder x < charOrder y then -1 else 1 from rfl] at h1
              rw [show compareNonDigits (y :: ys) (z :: zs)
                    = if charOrder y = charOrder z then compareNonDigits ys zs
                      else if charOrder y < charOrder z then -1 else 1 from rfl] at h2
              rw [show compareNonDigits (x :: xs) (z :: zs)
                    = if charOrder x = charOrder z then compareNonDigits xs zs
                      else if charOrder x < charOrder z then -1 else 1 from rfl]
              by_cases hxy : charOrder x = charOrder y <;>
                by_cases hyz : charOrder y = charOrder z
              · rw [if_pos hxy] at h1
                rw [if_pos hyz] at h2
                rw [if_pos (by omega), ih h1 h2]
              · rw [if_neg hyz] at h2
                have hlt : charOrder y < charOrder z := by
                  split_ifs at h2 with h <;> omega
                rw [if_neg (by omega), if_pos (by omega)]
              · rw [if_neg hxy] at h1
                have hlt : charOrder x < charOrder y := by
                  split_ifs at h1 with h <;> omega
                rw [if_neg (by omega), if_pos (by omega)]
              · rw [if_neg hxy] at h1
                rw [if_neg hyz] at h2
                have hlt1 : charOrder x < charOrder y := by
                  split_ifs at h1 with h <;> omega
                have hlt2 : charOrder y < charOrder z := by
                  split_ifs at h2 with h <;> omega
                rw [if_neg (by omega), if_pos (by omega)]

theorem all_takeWhile (p : Nat → Bool) (l : List Nat) : (l.takeWhile p).all p = true := by
  induction l with
  | nil => rfl
  | cons c t ih =>
      by_cases h : p c
      · simpa [List.takeWhile, h] using ih
      · simp [List.takeWhile, h]

theorem goParse_norm (s : List Nat) (hs : s.all (fun c => isDigitB c) = true) :
    goParseInt64 (if s.dropWhile (fun c => c = 48) = [] then [48]
                  else s.dropWhile (fun c => c = 48))
      = ((min (digitsVal s) maxInt64 : Nat) : Int) := by
  by_cases h : s.dropWhile (fun c => c = 48) = []
  · have hz : digitsVal s = 0 := by
      rw [← digitsVal_dropZeros s, h]; rfl
    rw [if_pos h, hz]
    decide
  · have hall : (s.dropWhile (fun c => c = 48)).all (fun c => isDigitB c) = true :=
      all_dropWhile _ _ _ hs
    have hval : digitsVal (s.dropWhile (fun c => c = 48)) = digitsVal s :=
      digitsVal_dropZeros s
    rw [if_neg h]
    unfold goParseInt64
    rw [if_pos ⟨h, hall⟩, hval]
    omega

theorem compareDigits_key (a b : List Nat)
    (ha : a.all (fun c => isDigitB c) = true) (hb : b.all (fun c => isDigitB c) = true) :
    compareDigits a b =
      (if min (digitsVal a) maxInt64 < min (digitsVal b) maxInt64 then -1
       else if min (digitsVal b) maxInt64 < min (digitsVal a) maxInt64 then 1 else 0) := by
  unfold compareDigits
  simp only [goParse_norm a ha, goParse_norm b hb]
  by_cases h1 : min (digitsVal a) maxInt64 < min (digitsVal b) maxInt64
  · rw [if_pos (by exact_mod_cast h1), if_pos h1]
  · rw [if_neg (by exact_mod_cast h1), if_neg h1]
    by_cases h2 : min (digitsVal b) maxInt64 < min (digitsVal a) maxInt64
    · rw [if_pos (by exact_mod_cast h2), if_pos h2]
    · rw [if_neg (by exact_mod_cast h2), if_neg h2]

theorem compareDigits_refl (a : List Nat) : compareDigits a a = 0 := by
  unfold compareDigits
  dsimp only
  split_ifs with h1 h2 <;> omega

theorem compareDigits_antisym (a b : List Nat) :
    compareDigits a b = -(compareDigits b a) := by
  unfold compareDigits
  dsimp only
  split_ifs with h1 h2 h3 h4 h5 h6 h7 <;> omega

theorem compareDigits_range (a b : List Nat) :
    compareDigits a b = -1 ∨ compareDigits a b = 0 ∨ compareDigits a b = 1 := by
  unfold compareDigits
  dsimp only
  split_ifs <;> simp

theorem compareDigits_zero_keys {a b : List Nat}
    (ha : a.all (fun c => isDigitB c) = true) (hb : b.all (fun c => isDigitB c) = true)
    (h : compareDigits a b = 0) :
    min (digitsVal a) maxInt64 = min (digitsVal b) maxInt64 := by
  rw [compareDigits_key a b ha hb] at h
  split_ifs at h <;> omega

theorem compareDigits_congr_left {a b : List Nat}
    (ha : a.all (fun c => isDigitB c) = true) (hb : b.all (fun c => isDigitB c) = true)
    (h : compareDigits a b = 0) (z : List Nat) (hz : z.all (fun c => isDigitB c) = true) :
    compareDigits a z = compareDigits b z := by
  rw [compareDigits_key a z ha hz, compareDigits_key b z hb hz,
    compareDigits_zero_keys ha hb h]

theorem length_dropWhile_le (p : Nat → Bool) (l : List Nat) :
    (l.dropWhile p).length ≤ l.length := by
  induction l with
  | nil => simp
  | cons c t ih =>
      by_cases h : p c
      · simp only [List.dropWhile, h]
        exact Nat.le_succ_of_le ih
      · simp [List.dropWhile, h]

theorem restPart_length_lt (a : List Nat) (h : a ≠ []) :
    (restPart a).length < a.length := by
  match a with
  | c :: t =>
      by_cases hd : isDigitB c
      · have e : (c :: t).dropWhile (fun x => !isDigitB x) = c :: t := by
          simp [List.dropWhile, hd]
        unfold restPart
        rw [e]
        have e2 : (c :: t).dropWhile (fun x => isDigitB x) = t.dropWhile (fun x => isDigitB x) := by
          simp [List.dropWhile, hd]
        rw [e2]
        exact Nat.lt_succ_of_le (length_dropWhile_le _ t)
      · have e : (c :: t).dropWhile (fun x => !isDigitB x) = t.dropWhile (fun x => !isDigitB x) := by
          simp [List.dropWhile, hd]
        unfold restPart
        rw [e]
        calc ((t.dropWhile (fun x => !isDigitB x)).dropWhile (fun x => isDigitB x)).length
            ≤ (t.dropWhile (fun x => !isDigitB x)).length := length_dropWhile_le _ _
          _ ≤ t.length := length_dropWhile_le _ _
          _ < (c :: t).length := by simp

theorem restPart_nil : restPart [] = [] := rfl

/-- The successor-fuel unfolding of the `compareVersionPart` loop. -/
theorem cvpAux_succ (f : Nat) (a b : List Nat) :
    cvpAux (f + 1) a b =
      if a = [] ∧ b = [] then 0
      else
        if compareNonDigits (extractNonDigits a).1 (extractNonDigits b).1 ≠ 0 then
          compareNonDigits (extractNonDigits a).1 (extractNonDigits b).1
        else
          if compareDigits (extractDigits (extractNonDigits a).2).1
               (extractDigits (extractNonDigits b).2).1 ≠ 0 then
            compareDigits (extractDigits (extractNonDigits a).2).1
              (extractDigits (extractNonDigits b).2).1
          else cvpAux f (restPart a) (restPart b) := rfl

theorem cvpAux_refl (f : Nat) (a : List Nat) : cvpAux f a a = 0 := by
  induction f generalizing a with
  | zero => rfl
  | succ f ih =>
      rw [cvpAux_succ]
      by_cases h : a = []
      · simp [h]
      · rw [if_neg (by simp [h])]
        simp [cnd_refl, compareDigits_refl, ih]

theorem cvpAux_antisym (f : Nat) (a b : List Nat) : cvpAux f a b = -(cvpAux f b a) := by
  induction f generalizing a b with
  | zero => simp [cvpAux]
  | succ f ih =>
      rw [cvpAux_succ, cvpAux_succ]
      by_cases h : a = [] ∧ b = []
      · rw [if_pos h, if_pos ⟨h.2, h.1⟩]
        decide
      · rw [if_neg h, if_neg (show ¬(b = [] ∧ a = []) from fun hh => h ⟨hh.2, hh.1⟩)]
        have hcndA : compareNonDigits (extractNonDigits b).1 (extractNonDigits a).1
            = -(compareNonDigits (extractNonDigits a).1 (extractNonDigits b).1) := by
          rw [cnd_antisym]
        have hcdA : compareDigits (extractDigits (extractNonDigits b).2).1
              (extractDigits (extractNonDigits a).2).1
            = -(compareDigits (extractDigits (extractNonDigits a).2).1
                 (extractDigits (extractNonDigits b).2).1) := by
          rw [compareDigits_antisym]
        rw [hcndA, hcdA]
        by_cases hcnd : compareNonDigits (extractNonDigits a).1 (extractNonDigits b).1 = 0
        · rw [hcnd]
          simp only [neg_zero, ne_eq, not_true_eq_false, ite_false]
          by_cases hcd : compareDigits (extractDigits (extractNonDigits a).2).1
              (extractDigits (extractNonDigits b).2).1 = 0
          · rw [hcd]
            simp only [neg_zero, ne_eq, not_true_eq_false, ite_false]
            exact ih _ _
          · rw [if_pos hcd, if_pos (by simpa using hcd)]
            omega
        · rw [if_pos hcnd, if_pos (by simpa using hcnd)]
          omega

theorem cvpAux_range (f : Nat) (a b : List Nat) :
    cvpAux f a b = -1 ∨ cvpAux f a b = 0 ∨ cvpAux f a b = 1 := by
  induction f generalizing a b with
  | zero => simp [cvpAux]
  | succ f ih =>
      rw [cvpAux_succ]
      split_ifs with h1 h2 h3
      · simp
      · exact cnd_range _ _
      · exact compareDigits_range _ _
      · exact ih _ _

theorem cvpAux_fuel (f g : Nat) (a b : List Nat)
    (hf : a.length + b.length < f) (hg : a.length + b.length < g) :
    cvpAux f a b = cvpAux g a b := by
  induction f generalizing g a b with
  | zero => omega
  | succ f ih =>
      match g, hg with
      | g + 1, hg =>
          rw [cvpAux_succ, cvpAux_succ]
          by_cases h : a = [] ∧ b = []
          · rw [if_pos h, if_pos h]
          · rw [if_neg h, if_neg h]
            by_cases hcnd : compareNonDigits (extractNonDigits a).1 (extractNonDigits b).1 = 0
            · simp only [hcnd, ne_eq, not_true_eq_false, ite_false]
              by_cases hcd : compareDigits (extractDigits (extractNonDigits a).2).1
                  (extractDigits (extractNonDigits b).2).1 = 0
              · simp only [hcd, ne_eq, not_true_eq_false, ite_false]
                have hlt : (restPart a).length + (restPart b).length < a.length + b.length := by
                  rcases Classical.em (a = []) with ha | ha
                  · have hb : b ≠ [] := fun hb => h ⟨ha, hb⟩
                    have := restPart_length_lt b hb
                    rw [ha, restPart_nil]
                    simpa using this
                  · have h1 := restPart_length_lt a ha
                    have h2 : (restPart b).length ≤ b.length := by
                      rcases Classical.em (b = []) with hb | hb
                      · rw [hb, restPart_nil]
                      · exact Nat.le_of_lt (restPart_length_lt b hb)
                    omega
                exact ih g (restPart a) (restPart b) (by omega) (by omega)
              · rw [if_pos (by simpa using hcd), if_pos (by simpa using hcd)]
            · rw [if_pos (by simpa using hcnd), if_pos (by simpa using hcnd)]

theorem compareDigits_congr_right {b c : List Nat}
    (hb : b.all (fun x => isDigitB x) = true) (hc : c.all (fun x => isDigitB x) = true)
    (h : compareDigits b c = 0) (a : List Nat) (ha : a.all (fun x => isDigitB x) = true) :
    compareDigits a b = compareDigits a c := by
  rw [compareDigits_key a b ha hb, compareDigits_key a c ha hc,
    compareDigits_zero_keys hb hc h]

theorem compareDigits_trans_neg {a b c : List Nat}
    (ha : a.all (fun x => isDigitB x) = true) (hb : b.all (fun x => isDigitB x) = true)
    (hc : c.all (fun x => isDigitB x) = true)
    (h1 : compareDigits a b = -1) (h2 : compareDigits b c = -1) :
    compareDigits a c = -1 := by
  rw [compareDigits_key a b ha hb] at h1
  rw [compareDigits_key b c hb hc] at h2
  rw [compareDigits_key a c ha hc]
  split_ifs at h1 h2 ⊢ <;> omega

theorem cvpAux_congr (f : Nat) {a b : List Nat} (h : cvpAux f a b = 0) (z : List Nat) :
    cvpAux f a z = cvpAux f b z := by
  induction f generalizing a b z with
  | zero => rfl
  | succ f ih =>
      by_cases hab : a = [] ∧ b = []
      · rw [hab.1, hab.2]
      · rw [cvpAux_succ, if_neg hab] at h
        have hcnd : compareNonDigits (extractNonDigits a).1 (extractNonDigits b).1 = 0 := by
          by_contra hcc
          rw [if_pos (by simpa using hcc)] at h
          exact hcc h
        rw [if_neg (not_not_intro hcnd)] at h
        have hcd : compareDigits (extractDigits (extractNonDigits a).2).1
            (extractDigits (extractNonDigits b).2).1 = 0 := by
          by_contra hcc
          rw [if_pos (by simpa using hcc)] at h
          exact hcc h
        rw [if_neg (not_not_intro hcd)] at h
        have hnab : (extractNonDigits a).1 = (extractNonDigits b).1 := cnd_eq_zero hcnd
        have hda : ((extractDigits (extractNonDigits a).2).1).all (fun x => isDigitB x) = true :=
          all_takeWhile _ _
        have hdb : ((extractDigits (extractNonDigits b).2).1).all (fun x => isDigitB x) = true :=
          all_takeWhile _ _
        by_cases haz : a = [] ∧ z = []
        · by_cases hbz : b = [] ∧ z = []
          · rw [haz.1, hbz.1]
          · -- a and z are empty, b is not; both comparisons still come out 0
            rw [cvpAux_succ, cvpAux_succ, if_pos haz, if_neg hbz]
            rw [haz.1] at hnab hcd h
            rw [haz.2]
            rw [if_neg (not_not_intro (by
              rw [← hnab]
              exact cnd_refl _))]
            rw [if_neg (not_not_intro (by
              rw [compareDigits_antisym, hcd]
              decide))]
            have hra : restPart ([] : List Nat) = [] := rfl
            rw [hra] at h
            rw [hra, cvpAux_antisym f (restPart b) [], h]
            decide
        · by_cases hbz : b = [] ∧ z = []
          · -- b and z are empty, a is not
            rw [cvpAux_succ, cvpAux_succ, if_neg haz, if_pos hbz]
            rw [hbz.1] at hnab hcd h
            rw [hbz.2]
            rw [if_neg (not_not_intro (by
              rw [hnab]
              exact cnd_refl _))]
            rw [if_neg (not_not_intro hcd)]
            exact h
          · rw [cvpAux_succ, if_neg haz, cvpAux_succ, if_neg hbz, ← hnab]
            have hdz : ((extractDigits (extractNonDigits z).2).1).all (fun x => isDigitB x) = true :=
              all_takeWhile _ _
            rw [compareDigits_congr_left hda hdb hcd _ hdz]
            by_cases hc1 : compareNonDigits (extractNonDigits a).1 (extractNonDigits z).1 = 0
            · rw [if_neg (not_not_intro hc1), if_neg (not_not_intro hc1)]
              by_cases hc2 : compareDigits (extractDigits (extractNonDigits b).2).1
                  (extractDigits (extractNonDigits z).2).1 = 0
              · rw [if_neg (not_not_intro hc2), if_neg (not_not_intro hc2)]
                exact ih h _
              · rw [if_pos (by simpa using hc2), if_pos (by simpa using hc2)]
            · rw [if_pos (by simpa using hc1), if_pos (by simpa using hc1)]

theorem cvpAux_trans_neg (f : Nat) {a b c : List Nat}
    (h1 : cvpAux f a b = -1) (h2 : cvpAux f b c = -1) : cvpAux f a c = -1 := by
  induction f generalizing a b c with
  | zero => simp [cvpAux] at h1
  | succ f ih =>
      by_cases hab : a = [] ∧ b = []
      · rw [cvpAux_succ, if_pos hab] at h1
        exact absurd h1 (by decide)
      by_cases hbc : b = [] ∧ c = []
      · rw [cvpAux_succ, if_pos hbc] at h2
        exact absurd h2 (by decide)
      by_cases hac : a = [] ∧ c = []
      · rw [cvpAux_antisym] at h2
        rw [hac.1] at h1
        rw [hac.2] at h2
        omega
      rw [cvpAux_succ, if_neg hab] at h1
      rw [cvpAux_succ, if_neg hbc] at h2
      rw [cvpAux_succ, if_neg hac]
      have hda : ((extractDigits (extractNonDigits a).2).1).all (fun x => isDigitB x) = true :=
        all_takeWhile _ _
      have hdb : ((extractDigits (extractNonDigits b).2).1).all (fun x => isDigitB x) = true :=
        all_takeWhile _ _
      have hdc : ((extractDigits (extractNonDigits c).2).1).all (fun x => isDigitB x) = true :=
        all_takeWhile _ _
      by_cases hnab : compareNonDigits (extractNonDigits a).1 (extractNonDigits b).1 = 0
      · rw [if_neg (not_not_intro hnab)] at h1
        have hab' : (extractNonDigits a).1 = (extractNonDigits b).1 := cnd_eq_zero hnab
        by_cases hnbc : compareNonDigits (extractNonDigits b).1 (extractNonDigits c).1 = 0
        · rw [if_neg (not_not_intro hnbc)] at h2
          have hbc' : (extractNonDigits b).1 = (extractNonDigits c).1 := cnd_eq_zero hnbc
          rw [if_neg (not_not_intro (by rw [hab', hbc']; exact cnd_refl _))]
          by_cases hd1 : compareDigits (extractDigits (extractNonDigits a).2).1
              (extractDigits (extractNonDigits b).2).1 = 0
          · rw [if_neg (not_not_intro hd1)] at h1
            by_cases hd2 : compareDigits (extractDigits (extractNonDigits b).2).1
                (extractDigits (extractNonDigits c).2).1 = 0
            · rw [if_neg (not_not_intro hd2)] at h2
              rw [if_neg (not_not_intro (by
                rw [compareDigits_congr_left hda hdb hd1 _ hdc]
                exact hd2))]
              exact ih h1 h2
            · rw [if_pos (by simpa using hd2)] at h2
              rw [compareDigits_congr_left hda hdb hd1 _ hdc, if_pos (by simpa [h2] using hd2), h2]
          · rw [if_pos (by simpa using hd1)] at h1
            by_cases hd2 : compareDigits (extractDigits (extractNonDigits b).2).1
                (extractDigits (extractNonDigits c).2).1 = 0
            · rw [if_neg (not_not_intro hd2)] at h2
              have := compareDigits_congr_right hdb hdc hd2 _ hda
              rw [← this, if_pos (by rw [h1]; decide), h1]
            · rw [if_pos (by simpa using hd2)] at h2
              have := compareDigits_trans_neg hda hdb hdc h1 h2
              rw [if_pos (by rw [this]; decide), this]
        · rw [if_pos (by simpa using hnbc)] at h2
          rw [if_pos (by rw [hab']; simpa [h2] using hnbc), hab', h2]
      · rw [if_pos (by simpa using hnab)] at h1
        by_cases hnbc : compareNonDigits (extractNonDigits b).1 (extractNonDigits c).1 = 0
        · have hbc' : (extractNonDigits b).1 = (extractNonDigits c).1 := cnd_eq_zero hnbc
          rw [if_pos (by rw [← hbc']; simpa [h1] using hnab), ← hbc', h1]
        · rw [if_pos (by simpa using hnbc)] at h2
          have := cnd_trans_neg h1 h2
          rw [if_pos (by rw [this]; decide), this]

theorem cvp_eq_aux (a b : List Nat) :
    compareVersionPart a b = cvpAux (a.length + b.length + 1) a b := rfl

theorem cvp_refl (a : List Nat) : compareVersionPart a a = 0 := cvpAux_refl _ _

theorem cvp_antisym (a b : List Nat) :
    compareVersionPart a b = -(compareVersionPart b a) := by
  rw [cvp_eq_aux, cvp_eq_aux, cvpAux_antisym,
    cvpAux_fuel (a.length + b.length + 1) (b.length + a.length + 1) b a (by omega) (by omega)]

theorem cvp_range (a b : List Nat) :
    compareVersionPart a b = -1 ∨ compareVersionPart a b = 0 ∨ compareVersionPart a b = 1 :=
  cvpAux_range _ _ _

theorem cvp_congr_left {x y : List Nat} (h : compareVersionPart x y = 0) (z : List Nat) :
    compareVersionPart x z = compareVersionPart y z := by
  have hF : cvpAux (x.length + y.length + z.length + 1) x y = 0 := by
    rw [cvpAux_fuel (x.length + y.length + z.length + 1) (x.length + y.length + 1) x y
      (by omega) (by omega)]
    exact h
  calc compareVersionPart x z
      = cvpAux (x.length + y.length + z.length + 1) x z := by
        rw [cvp_eq_aux]
        exact cvpAux_fuel _ _ _ _ (by omega) (by omega)
    _ = cvpAux (x.length + y.length + z.length + 1) y z := cvpAux_congr _ hF z
    _ = compareVersionPart y z := by
        rw [cvp_eq_aux]
        exact cvpAux_fuel _ _ _ _ (by omega) (by omega)

theorem cvp_congr_right {x y : List Nat} (h : compareVersionPart x y = 0) (z : List Nat) :
    compareVersionPart z x = compareVersionPart z y := by
  rw [cvp_antisym z x, cvp_antisym z y, cvp_congr_left h z]

theorem cvp_trans_neg {x y z : List Nat}
    (h1 : compareVersionPart x y = -1) (h2 : compareVersionPart y z = -1) :
    compareVersionPart x z = -1 := by
  have hx : cvpAux (x.length + y.length + z.length + 1) x y = -1 := by
    rw [cvpAux_fuel (x.length + y.length + z.length + 1) (x.length + y.length + 1) x y
      (by omega) (by omega)]
    exact h1
  have hy : cvpAux (x.length + y.length + z.length + 1) y z = -1 := by
    rw [cvpAux_fuel (x.length + y.length + z.length + 1) (y.length + z.length + 1) y z
      (by omega) (by omega)]
    exact h2
  rw [cvp_eq_aux,
    cvpAux_fuel (x.length + z.length + 1) (x.length + y.length + z.length + 1) x z
      (by omega) (by omega)]
  exact cvpAux_trans_neg _ hx hy

theorem cvp_le_trans {x y z : List Nat}
    (h1 : compareVersionPart x y ≤ 0) (h2 : compareVersionPart y z ≤ 0) :
    compareVersionPart x z ≤ 0 := by
  rcases cvp_range x y with hx | hx | hx
  · rcases cvp_range y z with hy | hy | hy
    · rw [cvp_trans_neg hx hy]
      decide
    · rw [← cvp_congr_right hy x, hx]
      decide
    · rw [hy] at h2
      omega
  · rw [cvp_congr_left hx z]
    exact h2
  · rw [hx] at h1
    omega

theorem Compare_def (a b : List Nat) :
    Compare a b =
      if (ParseVersion a).1 ≠ (ParseVersion b).1 then
        (if (ParseVersion a).1 < (ParseVersion b).1 then -1 else 1)
      else
        if compareVersionPart (ParseVersion a).2.1 (ParseVersion b).2.1 ≠ 0 then
          compareVersionPart (ParseVersion a).2.1 (ParseVersion b).2.1
        else compareVersionPart (ParseVersion a).2.2 (ParseVersion b).2.2 := rfl

theorem Compare_refl (a : List Nat) : Compare a a = 0 := by
  rw [Compare_def]
  simp [cvp_refl]

theorem Compare_antisym (a b : List Nat) : Compare a b = -(Compare b a) := by
  rw [Compare_def, Compare_def]
  by_cases he : (ParseVersion a).1 = (ParseVersion b).1
  · rw [if_neg (not_not_intro he), if_neg (not_not_intro he.symm)]
    rw [cvp_antisym (ParseVersion a).2.1 (ParseVersion b).2.1,
      cvp_antisym (ParseVersion a).2.2 (ParseVersion b).2.2]
    by_cases hx : compareVersionPart (ParseVersion b).2.1 (ParseVersion a).2.1 = 0
    · simp [hx]
    · rw [if_pos (by simpa using hx), if_pos (by simpa using hx)]
  · rw [if_pos he, if_pos (fun hh => he hh.symm)]
    rcases lt_trichotomy (ParseVersion a).1 (ParseVersion b).1 with h | h | h <;>
      split_ifs <;> omega

theorem Compare_le_trans {a b c : List Nat}
    (h1 : Compare a b ≤ 0) (h2 : Compare b c ≤ 0) : Compare a c ≤ 0 := by
  rw [Compare_def] at h1 h2 ⊢
  by_cases hab : (ParseVersion a).1 = (ParseVersion b).1 <;>
    by_cases hbc : (ParseVersion b).1 = (ParseVersion c).1
  · rw [if_neg (not_not_intro hab)] at h1
    rw [if_neg (not_not_intro hbc)] at h2
    rw [if_neg (not_not_intro (hab.trans hbc))]
    by_cases hu1 : compareVersionPart (ParseVersion a).2.1 (ParseVersion b).2.1 = 0
    · rw [if_neg (not_not_intro hu1)] at h1
      by_cases hu2 : compareVersionPart (ParseVersion b).2.1 (ParseVersion c).2.1 = 0
      · rw [if_neg (not_not_intro hu2)] at h2
        have huac : compareVersionPart (ParseVersion a).2.1 (ParseVersion c).2.1 = 0 := by
          rw [cvp_congr_left hu1]
          exact hu2
        rw [if_neg (not_not_intro huac)]
        exact cvp_le_trans h1 h2
      · rw [if_pos (by simpa using hu2)] at h2
        have h2' : compareVersionPart (ParseVersion b).2.1 (ParseVersion c).2.1 = -1 := by
          rcases cvp_range (ParseVersion b).2.1 (ParseVersion c).2.1 with h | h | h
          · exact h
          · exact absurd h hu2
          · omega
        have hm : compareVersionPart (ParseVersion a).2.1 (ParseVersion c).2.1 = -1 := by
          rw [cvp_congr_left hu1]
          exact h2'
        rw [if_pos (by rw [hm]; decide), hm]
        decide
    · rw [if_pos (by simpa using hu1)] at h1
      have h1' : compareVersionPart (ParseVersion a).2.1 (ParseVersion b).2.1 = -1 := by
        rcases cvp_range (ParseVersion a).2.1 (ParseVersion b).2.1 with h | h | h
        · exact h
        · exact absurd h hu1
        · omega
      by_cases hu2 : compareVersionPart (ParseVersion b).2.1 (ParseVersion c).2.1 = 0
      · have hm : compareVersionPart (ParseVersion a).2.1 (ParseVersion c).2.1 = -1 := by
          rw [← cvp_congr_right hu2]
          exact h1'
        rw [if_pos (by rw [hm]; decide), hm]
        decide
      · rw [if_pos (by simpa using hu2)] at h2
        have h2' : compareVersionPart (ParseVersion b).2.1 (ParseVersion c).2.1 = -1 := by
          rcases cvp_range (ParseVersion b).2.1 (ParseVersion c).2.1 with h | h | h
          · exact h
          · exact absurd h hu2
          · omega
        have hm := cvp_trans_neg h1' h2'
        rw [if_pos (by rw [hm]; decide), hm]
        decide
  · rw [if_pos hbc] at h2
    have hlt : (ParseVersion b).1 < (ParseVersion c).1 := by
      split_ifs at h2 with h
      · exact h
      · omega
    have hne : (ParseVersion a).1 ≠ (ParseVersion c).1 := by omega
    rw [if_pos hne, if_pos (by omega)]
    decide
  · rw [if_pos hab] at h1
    have hlt : (ParseVersion a).1 < (ParseVersion b).1 := by
      split_ifs at h1 with h
      · exact h
      · omega
    have hne : (ParseVersion a).1 ≠ (ParseVersion c).1 := by omega
    rw [if_pos hne, if_pos (by omega)]
    decide
  · rw [if_pos hab] at h1
    rw [if_pos hbc] at h2
    have hlt1 : (ParseVersion a).1 < (ParseVersion b).1 := by
      split_ifs at h1 with h
      · exact h
      · omega
    have hlt2 : (ParseVersion b).1 < (ParseVersion c).1 := by
      split_ifs at h2 with h
      · exact h
      · omega
    rw [if_pos (show (ParseVersion a).1 ≠ (ParseVersion c).1 by omega), if_pos (by omega)]
    decide

theorem Compare_ge_trans {a b c : List Nat}
    (h1 : 0 ≤ Compare a b) (h2 : 0 ≤ Compare b c) : 0 ≤ Compare a c := by
  have ha := Compare_antisym b a
  have hb := Compare_antisym c b
  have hc := Compare_antisym c a
  have := Compare_le_trans (a := c) (b := b) (c := a) (by omega) (by omega)
  omega

theorem Compare_neg_flip {a b : List Nat} (h : Compare a b < 0) : 0 ≤ Compare b a := by
  have := Compare_antisym a b
  omega

theorem Compare_not_lt_ge {a b : List Nat} (h : ¬ Compare a b < 0) : 0 ≤ Compare a b := by
  omega

/-- C4: `Compare` is a strict weak order on version strings: it is reflexive
at 0, antisymmetric, and its non-strict comparison is transitive.  The epoch
is compared as an integer and the upstream/revision parts through the
alternating-run comparison, each of which is a total preorder. -/
theorem compare_strict_weak_order :
    (∀ a, Compare a a = 0) ∧
    (∀ a b, Compare a b = -(Compare b a)) ∧
    (∀ a b c, Compare a b ≤ 0 → Compare b c ≤ 0 → Compare a c ≤ 0) :=
  ⟨Compare_refl, Compare_antisym, fun _ _ _ h1 h2 => Compare_le_trans h1 h2⟩

/-! ## C8: PoolPath -/

theorem suffix_getLast {s l : List Nat} (h : l.isSuffixOf s = true) (hl : l ≠ []) :
    s.getLast? = l.getLast? := by
  rw [List.isSuffixOf_iff_suffix] at h
  obtain ⟨t, rfl⟩ := h
  exact List.getLast?_append_of_ne_nil t hl

/-- C9: for every ar member name with suffix `.zst` (whatever the gzip and
plain-tar branches would have produced), `extractControl` fails with the
dedicated unsupported-compression error — a value distinct from every
wrapped I/O error — and in particular never yields control data. -/
theorem extractControl_zst_unsupported (archiveName : List Nat)
    (g p : Except DebError (List Nat))
    (h : hasSuffix archiveName (bstr ".zst") = true) :
    extractControl archiveName g p = Except.error DebError.unsupportedCompression ∧
    (∀ r, extractControl archiveName g p ≠ Except.ok r) ∧
    (∀ m, (DebError.unsupportedCompression : DebError) ≠ DebError.ioError m) := by
  have hlast : archiveName.getLast? = some 116 := by
    rw [suffix_getLast h (by decide)]
    rfl
  have hgz : hasSuffix archiveName (bstr ".gz") = false := by
    by_contra hc
    have h2 : archiveName.getLast? = some 122 := by
      rw [suffix_getLast (show (bstr ".gz").isSuffixOf archiveName = true by
        simpa [hasSuffix] using hc) (by decide)]
      rfl
    rw [hlast] at h2
    simp at h2
  have hxz : hasSuffix archiveName (bstr ".xz") = false := by
    by_contra hc
    have h2 : archiveName.getLast? = some 122 := by
      rw [suffix_getLast (show (bstr ".xz").isSuffixOf archiveName = true by
        simpa [hasSuffix] using hc) (by decide)]
      rfl
    rw [hlast] at h2
    simp at h2
  refine ⟨?_, ?_, ?_⟩
  · unfold extractControl
    rw [hgz, hxz, h]
    rfl
  · intro r hr
    unfold extractControl at hr
    rw [hgz, hxz, h] at hr
    simp at hr
  · intro m hm
    exact DebError.noConfusion hm

/-- Witness for C9 at the member name `control.tar.zst`. -/
theorem extractControl_zst_unsupported_witness :
    extractControl (bstr "control.tar.zst") (Except.ok (bstr "gz"))
        (Except.ok (bstr "tar")) = Except.error DebError.unsupportedCompression ∧
    (∀ r, extractControl (bstr "control.tar.zst") (Except.ok (bstr "gz"))
        (Except.ok (bstr "tar")) ≠ Except.ok r) ∧
    (∀ m, (DebError.unsupportedCompression : DebError) ≠ DebError.ioError m) :=
  extractControl_zst_unsupported _ _ _ (by decide)

/-! ## C1: control-stanza round trip -/

/-- C1 counterexample: a record whose Size, MD5sum, SHA1, SHA256 and
Filename are all non-empty; re-parsing its rendered stanza succeeds but
returns a record with those five fields reset to their zero values —
`parseControl` has no case for them, so they do NOT survive the round trip
as the claim requires. -/
theorem control_roundtrip_digest_counterexample :
    parseControl (ControlString exPkg) =
      Except.ok { exPkg with Size := 0, MD5sum := [], SHA1 := [], SHA256 := [], Filename := [] } ∧
    exPkg.SHA256 ≠ [] ∧ exPkg.SHA1 ≠ [] ∧ exPkg.MD5sum ≠ [] ∧
    exPkg.Filename ≠ [] ∧ exPkg.Size ≠ 0 := by
  refine ⟨by decide, by decide, by decide, by decide, by decide, by decide⟩

/-! ### C1 support: the line scanner on rendered stanzas -/

theorem goSplit_cons (cur : List Nat) (c : Nat) (cs : List Nat) :
    goSplit cur (c :: cs) =
      if c = 10 then dropCR cur :: goSplit [] cs else goSplit (cur ++ [c]) cs := rfl

theorem goSplit_line (cur l rest : List Nat) (hl : (10:Nat) ∉ l) :
    goSplit cur (l ++ 10 :: rest) = dropCR (cur ++ l) :: goSplit [] rest := by
  induction l generalizing cur with
  | nil => simp [goSplit]
  | cons c t ihl =>
      have hc : c ≠ 10 := by
        intro hh
        exact hl (by simp [hh])
      have ht : (10:Nat) ∉ t := fun hh => hl (by simp [hh])
      rw [show (c :: t) ++ 10 :: rest = c :: (t ++ 10 :: rest) from rfl,
        goSplit_cons, if_neg hc,
        ihl (cur ++ [c]) ht, show (cur ++ [c]) ++ t = cur ++ c :: t by simp]

theorem splitLines_line (l rest : List Nat) (hl : (10:Nat) ∉ l) :
    splitLines (l ++ 10 :: rest) = dropCR l :: splitLines rest := by
  unfold splitLines
  rw [show l ++ 10 :: rest = [] ++ (l ++ 10 :: rest) by simp] at *
  simpa using goSplit_line [] l rest hl

theorem length_dropWhile_eq_self (p : Nat → Bool) (l : List Nat)
    (h : (l.dropWhile p).length = l.length) : l.dropWhile p = l := by
  cases l with
  | nil => rfl
  | cons a t =>
      by_cases hp : p a
      · exfalso
        have hle := length_dropWhile_le p t
        rw [List.dropWhile_cons, if_pos hp] at h
        simp at h
        omega
      · rw [List.dropWhile_cons, if_neg hp]

theorem dropWhile_self_head (p : Nat → Bool) (l : List Nat) (h : l.dropWhile p = l) :
    ∀ c, l.head? = some c → p c = false := by
  intro c hc
  cases l with
  | nil => simp at hc
  | cons a t =>
      obtain rfl : a = c := by simpa using hc
      by_cases hp : p a
      · exfalso
        rw [List.dropWhile_cons, if_pos hp] at h
        have hle := length_dropWhile_le p t
        have : (t.dropWhile p).length = t.length + 1 := by rw [h]; rfl
        omega
      · simpa using hp

theorem trim_last {v : List Nat} (h : trimSpace v = v) :
    ∀ c, v.getLast? = some c → isWSB c = false := by
  intro c hc
  have l1 := length_dropWhile_le isWSB v
  have l2 := length_dropWhile_le isWSB (v.dropWhile isWSB).reverse
  have hlen : (trimSpace v).length = v.length := by rw [h]
  unfold trimSpace at hlen
  rw [List.length_reverse] at hlen
  rw [List.length_reverse] at l2
  have e1 : v.dropWhile isWSB = v :=
    length_dropWhile_eq_self _ _ (by omega)
  have e2 : (v.reverse).dropWhile isWSB = v.reverse := by
    rw [e1] at hlen
    exact length_dropWhile_eq_self _ _ (by rw [hlen, List.length_reverse])
  exact dropWhile_self_head _ _ e2 c (by rw [List.head?_reverse]; exact hc)

theorem trimSpace_cons_space (v : List Nat) : trimSpace (32 :: v) = trimSpace v := rfl

theorem dropWhile_eq_self_of_forall (p : Nat → Bool) (l : List Nat)
    (h : ∀ c ∈ l, p c = false) : l.dropWhile p = l := by
  cases l with
  | nil => rfl
  | cons a t => rw [List.dropWhile_cons, if_neg (by simp [h a (by simp)])]

theorem trimSpace_of_no_ws (v : List Nat) (h : ∀ c ∈ v, isWSB c = false) : trimSpace v = v := by
  unfold trimSpace
  rw [dropWhile_eq_self_of_forall _ _ h,
    dropWhile_eq_self_of_forall _ _ (fun c hc => h c (List.mem_reverse.mp hc)),
    List.reverse_reverse]

theorem findIdx_colon (nm t : List Nat) (h : (58:Nat) ∉ nm) :
    (nm ++ 58 :: t).findIdx (fun c => c = 58) = nm.length := by
  induction nm with
  | nil => simp [List.findIdx_cons]
  | cons a as ihn =>
      have ha : a ≠ 58 := fun hh => h (by simp [hh])
      have := ihn (fun hh => h (by simp [hh]))
      simp only [List.cons_append, List.findIdx_cons, this]
      simp [ha]

/-- Master round-trip lemma: feeding the rendered field/value pairs through
the control-file scanner (with the trailing `saveField`) amounts to folding
the save function over the pairs, skipping the empty-valued ones. -/
theorem parse_render (ps : List (List Nat × List Nat)) (st : PCState)
    (h : ∀ pr ∈ ps,
      (pr.1 ≠ [] ∧ (58:Nat) ∉ pr.1 ∧ (10:Nat) ∉ pr.1 ∧
        pr.1.head? ≠ some 32 ∧ pr.1.head? ≠ some 9) ∧
      (pr.2 = [] ∨ (trimSpace pr.2 = pr.2 ∧ (10:Nat) ∉ pr.2))) :
    applySave
        (((splitLines (ps.foldr (fun pr acc => writeField pr.1 pr.2 ++ acc) [])).foldl
          pcLine st).curF)
        (((splitLines (ps.foldr (fun pr acc => writeField pr.1 pr.2 ++ acc) [])).foldl
          pcLine st).curV)
        (((splitLines (ps.foldr (fun pr acc => writeField pr.1 pr.2 ++ acc) [])).foldl
          pcLine st).pkg)
      = ps.foldl (fun pk pr => if pr.2 = [] then pk else applySave pr.1 pr.2 pk)
          (applySave st.curF st.curV st.pkg) := by
  induction ps generalizing st with
  | nil => rfl
  | cons pr rest ih =>
      obtain ⟨nm, v⟩ := pr
      have hhd := h (nm, v) (by simp)
      have hrest : ∀ q ∈ rest,
          (q.1 ≠ [] ∧ (58:Nat) ∉ q.1 ∧ (10:Nat) ∉ q.1 ∧
            q.1.head? ≠ some 32 ∧ q.1.head? ≠ some 9) ∧
          (q.2 = [] ∨ (trimSpace q.2 = q.2 ∧ (10:Nat) ∉ q.2)) :=
        fun q hq => h q (by simp [hq])
      by_cases hv : v = []
      · subst hv
        simp only [List.foldr, show writeField nm [] = [] from rfl, List.nil_append]
        rw [ih st hrest]
        rfl
      · obtain ⟨⟨hnm1, hnm2, hnm3, hnm4, hnm5⟩, hval⟩ := hhd
        rcases hval with hveq | ⟨htrim, h10⟩
        · exact absurd hveq hv
        have hline10 : (10:Nat) ∉ (nm ++ 58 :: 32 :: v) := by
          intro hmem
          simp only [List.mem_append, List.mem_cons] at hmem
          rcases hmem with hmm | hmm | hmm | hmm
          · exact hnm3 hmm
          · omega
          · omega
          · exact h10 hmm
        have hlastv : dropCR (nm ++ 58 :: 32 :: v) = nm ++ 58 :: 32 :: v := by
          unfold dropCR
          have e1 : (nm ++ 58 :: 32 :: v).getLast? = v.getLast? := by
            rw [List.getLast?_append_of_ne_nil _ (by simp),
              show (58:Nat) :: 32 :: v = [58, 32] ++ v from rfl,
              List.getLast?_append_of_ne_nil _ hv]
          rw [e1, if_neg]
          intro hc
          have := trim_last htrim 13 hc
          simp [isWSB] at this
        have hrender : writeField nm v ++ rest.foldr (fun pr acc => writeField pr.1 pr.2 ++ acc) []
            = (nm ++ 58 :: 32 :: v) ++
                10 :: rest.foldr (fun pr acc => writeField pr.1 pr.2 ++ acc) [] := by
          unfold writeField
          rw [if_neg hv]
          simp
        have hhead : (nm ++ 58 :: 32 :: v).head? = nm.head? := by
          cases nm with
          | nil => exact absurd rfl hnm1
          | cons a t => rfl
        have hstep : pcLine st (nm ++ 58 :: 32 :: v)
            = ⟨nm, v, applySave st.curF st.curV st.pkg⟩ := by
          unfold pcLine
          rw [if_neg (by
            intro hcont
            rcases hcont.2 with hh | hh
            · rw [hhead] at hh
              exact hnm4 hh
            · rw [hhead] at hh
              exact hnm5 hh)]
          rw [findIdx_colon nm (32 :: v) hnm2]
          have hlen : (nm ++ 58 :: 32 :: v).length = nm.length + (v.length + 2) := by
            simp
          rw [if_pos ⟨List.length_pos.mpr hnm1, by omega⟩]
          have htake : (nm ++ 58 :: 32 :: v).take nm.length = nm := List.take_left nm _
          have hdrop : (nm ++ 58 :: 32 :: v).drop (nm.length + 1) = 32 :: v := by
            rw [show nm ++ 58 :: 32 :: v = (nm ++ [58]) ++ 32 :: v by simp,
              List.drop_left' (by simp)]
          rw [if_pos (by omega), htake, hdrop, trimSpace_cons_space, htrim]
        simp only [List.foldr] at *
        rw [hrender, splitLines_line _ _ hline10, hlastv]
        simp only [List.foldl]
        rw [hstep, ih ⟨nm, v, applySave st.curF st.curV st.pkg⟩ hrest, if_neg hv]

/-! ### C1 support: decimal rendering and Installed-Size recovery -/

theorem digitsVal_append_digit (xs : List Nat) (d : Nat) :
    digitsVal (xs ++ [d]) = digitsVal xs * 10 + (d - 48) := by
  unfold digitsVal
  rw [List.foldl_append]
  rfl

theorem natDigitsAux_spec : ∀ fuel n, n < fuel →
    (natDigitsAux fuel n).all (fun c => isDigitB c) = true ∧
    digitsVal (natDigitsAux fuel n) = n ∧ natDigitsAux fuel n ≠ [] := by
  intro fuel
  induction fuel with
  | zero => omega
  | succ f ihf =>
      intro n hn
      by_cases h10 : n < 10
      · refine ⟨by simp [natDigitsAux, h10, isDigitB]; try omega, ?_,
          by simp [natDigitsAux, h10]⟩
        simp [natDigitsAux, h10, digitsVal]
      · have hdiv : n / 10 < f := by omega
        obtain ⟨ha, hval, hne⟩ := ihf (n / 10) hdiv
        unfold natDigitsAux
        rw [if_neg h10]
        refine ⟨?_, ?_, by simp⟩
        · rw [List.all_append, ha]
          simp [isDigitB]
          try omega
        · rw [digitsVal_append_digit, hval]
          omega

theorem natDigits_spec (n : Nat) :
    (natDigits n).all (fun c => isDigitB c) = true ∧
    digitsVal (natDigits n) = n ∧ natDigits n ≠ [] :=
  natDigitsAux_spec (n + 1) n (Nat.lt_succ_self n)

theorem digit_not_ws {c : Nat} (h : isDigitB c = true) : isWSB c = false := by
  simp [isDigitB] at h
  simp [isWSB]
  omega

theorem formatInt_clean (i : Int) :
    trimSpace (formatInt i) = formatInt i ∧ (10:Nat) ∉ formatInt i := by
  have hmem : ∀ c ∈ formatInt i, isWSB c = false := by
    intro c hc
    unfold formatInt at hc
    split_ifs at hc with hneg
    · rcases List.mem_cons.mp hc with hh | hh
      · subst hh
        rfl
      · exact digit_not_ws (by
          have := (natDigits_spec (-i).toNat).1
          exact List.all_eq_true.mp this c hh)
    · exact digit_not_ws (by
        have := (natDigits_spec i.toNat).1
        exact List.all_eq_true.mp this c hc)
  refine ⟨trimSpace_of_no_ws _ hmem, ?_⟩
  intro hmem10
  have := hmem 10 hmem10
  simp [isWSB] at this

theorem goParse_natDigits (n : Nat) (h : n ≤ maxInt64) :
    goParseInt64E (natDigits n) = some ((n : Nat) : Int) := by
  obtain ⟨hall, hval, hne⟩ := natDigits_spec n
  have hhd : ∀ c, (natDigits n).head? = some c → isDigitB c = true := by
    intro c hc
    have : c ∈ natDigits n := by
      cases hnd : natDigits n with
      | nil => rw [hnd] at hc; simp at hc
      | cons a t =>
          rw [hnd] at hc
          simp only [List.head?_cons, Option.some.injEq] at hc
          subst hc
          simp [hnd]
    exact List.all_eq_true.mp hall c this
  unfold goParseInt64E
  rw [if_neg ?h45, if_neg ?h43, if_pos ⟨hne, hall, by omega⟩, hval]
  case h45 =>
    intro hc
    have := hhd 45 hc
    simp [isDigitB] at this
  case h43 =>
    intro hc
    have := hhd 43 hc
    simp [isDigitB] at this

/-! ### C1 support: the save steps in record-update form -/

theorem ite_nil (v : List Nat) : (if v = [] then ([] : List Nat) else v) = v := by
  by_cases h : v = []
  · rw [if_pos h, h]
  · rw [if_neg h]

theorem saveSkip_Package (v : List Nat) (pk : Package) :
    (if v = [] then pk else applySave (bstr "Package") v pk)
      = { pk with Name := if v = [] then pk.Name else trimSpace v } := by
  by_cases hv : v = []
  · rw [if_pos hv, if_pos hv]
  · rw [if_neg hv, if_neg hv]
    rfl

theorem saveSkip_Version (v : List Nat) (pk : Package) :
    (if v = [] then pk else applySave (bstr "Version") v pk)
      = { pk with Version := if v = [] then pk.Version else trimSpace v } := by
  by_cases hv : v = []
  · rw [if_pos hv, if_pos hv]
  · rw [if_neg hv, if_neg hv]
    rfl

theorem saveSkip_Architecture (v : List Nat) (pk : Package) :
    (if v = [] then pk else applySave (bstr "Architecture") v pk)
      = { pk with Architecture := if v = [] then pk.Architecture else trimSpace v } := by
  by_cases hv : v = []
  · rw [if_pos hv, if_pos hv]
  · rw [if_neg hv, if_neg hv]
    rfl

theorem saveSkip_Maintainer (v : List Nat) (pk : Package) :
    (if v = [] then pk else applySave (bstr "Maintainer") v pk)
      = { pk with Maintainer := if v = [] then pk.Maintainer else trimSpace v } := by
  by_cases hv : v = []
  · rw [if_pos hv, if_pos hv]
  · rw [if_neg hv, if_neg hv]
    rfl

theorem saveSkip_Description (v : List Nat) (pk : Package) :
    (if v = [] then pk else applySave (bstr "Description") v pk)
      = { pk with Description := if v = [] then pk.Description else trimSpace v } := by
  by_cases hv : v = []
  · rw [if_pos hv, if_pos hv]
  · rw [if_neg hv, if_neg hv]
    rfl

theorem saveSkip_Depends (v : List Nat) (pk : Package) :
    (if v = [] then pk else applySave (bstr "Depends") v pk)
      = { pk with Depends := if v = [] then pk.Depends else trimSpace v } := by
  by_cases hv : v = []
  · rw [if_pos hv, if_pos hv]
  · rw [if_neg hv, if_neg hv]
    rfl

theorem saveSkip_PreDepends (v : List Nat) (pk : Package) :
    (if v = [] then pk else applySave (bstr "Pre-Depends") v pk)
      = { pk with PreDepends := if v = [] then pk.PreDepends else trimSpace v } := by
  by_cases hv : v = []
  · rw [if_pos hv, if_pos hv]
  · rw [if_neg hv, if_neg hv]
    rfl

theorem saveSkip_Recommends (v : List Nat) (pk : Package) :
    (if v = [] then pk else applySave (bstr "Recommends") v pk)
      = { pk with Recommends := if v = [] then pk.Recommends else trimSpace v } := by
  by_cases hv : v = []
  · rw [if_pos hv, if_pos hv]
  · rw [if_neg hv, if_neg hv]
    rfl

theorem saveSkip_Suggests (v : List Nat) (pk : Package) :
    (if v = [] then pk else applySave (bstr "Suggests") v pk)
      = { pk with Suggests := if v = [] then pk.Suggests else trimSpace v } := by
  by_cases hv : v = []
  · rw [if_pos hv, if_pos hv]
  · rw [if_neg hv, if_neg hv]
    rfl

theorem saveSkip_Conflicts (v : List Nat) (pk : Package) :
    (if v = [] then pk else applySave (bstr "Conflicts") v pk)
      = { pk with Conflicts := if v = [] then pk.Conflicts else trimSpace v } := by
  by_cases hv : v = []
  · rw [if_pos hv, if_pos hv]
  · rw [if_neg hv, if_neg hv]
    rfl

theorem saveSkip_Provides (v : List Nat) (pk : Package) :
    (if v = [] then pk else applySave (bstr "Provides") v pk)
      = { pk with Provides := if v = [] then pk.Provides else trimSpace v } := by
  by_cases hv : v = []
  · rw [if_pos hv, if_pos hv]
  · rw [if_neg hv, if_neg hv]
    rfl

theorem saveSkip_Replaces (v : List Nat) (pk : Package) :
    (if v = [] then pk else applySave (bstr "Replaces") v pk)
      = { pk with Replaces := if v = [] then pk.Replaces else trimSpace v } := by
  by_cases hv : v = []
  · rw [if_pos hv, if_pos hv]
  · rw [if_neg hv, if_neg hv]
    rfl

theorem saveSkip_Section (v : List Nat) (pk : Package) :
    (if v = [] then pk else applySave (bstr "Section") v pk)
      = { pk with Section := if v = [] then pk.Section else trimSpace v } := by
  by_cases hv : v = []
  · rw [if_pos hv, if_pos hv]
  · rw [if_neg hv, if_neg hv]
    rfl

theorem saveSkip_Priority (v : List Nat) (pk : Package) :
    (if v = [] then pk else applySave (bstr "Priority") v pk)
      = { pk with Priority := if v = [] then pk.Priority else trimSpace v } := by
  by_cases hv : v = []
  · rw [if_pos hv, if_pos hv]
  · rw [if_neg hv, if_neg hv]
    rfl

theorem saveSkip_Homepage (v : List Nat) (pk : Package) :
    (if v = [] then pk else applySave (bstr "Homepage") v pk)
      = { pk with Homepage := if v = [] then pk.Homepage else trimSpace v } := by
  by_cases hv : v = []
  · rw [if_pos hv, if_pos hv]
  · rw [if_neg hv, if_neg hv]
    rfl

theorem saveSkip_InstalledSize (v : List Nat) (pk : Package) :
    (if v = [] then pk else applySave (bstr "Installed-Size") v pk)
      = { pk with InstalledSize :=
            if v = [] then pk.InstalledSize
            else
              match goParseInt64E (trimSpace v) with
              | some k => k
              | none => pk.InstalledSize } := by
  by_cases hv : v = []
  · rw [if_pos hv, if_pos hv]
  · rw [if_neg hv, if_neg hv]
    show (match goParseInt64E (trimSpace v) with
          | some k => { pk with InstalledSize := k }
          | none => pk) = _
    cases goParseInt64E (trimSpace v) <;> rfl

theorem saveSkip_Filename (v : List Nat) (pk : Package) :
    (if v = [] then pk else applySave (bstr "Filename") v pk) = pk := by
  by_cases hv : v = []
  · rw [if_pos hv]
  · rw [if_neg hv]
    rfl

theorem saveSkip_Size (v : List Nat) (pk : Package) :
    (if v = [] then pk else applySave (bstr "Size") v pk) = pk := by
  by_cases hv : v = []
  · rw [if_pos hv]
  · rw [if_neg hv]
    rfl

theorem saveSkip_MD5sum (v : List Nat) (pk : Package) :
    (if v = [] then pk else applySave (bstr "MD5sum") v pk) = pk := by
  by_cases hv : v = []
  · rw [if_pos hv]
  · rw [if_neg hv]
    rfl

theorem saveSkip_SHA1 (v : List Nat) (pk : Package) :
    (if v = [] then pk else applySave (bstr "SHA1") v pk) = pk := by
  by_cases hv : v = []
  · rw [if_pos hv]
  · rw [if_neg hv]
    rfl

theorem saveSkip_SHA256 (v : List Nat) (pk : Package) :
    (if v = [] then pk else applySave (bstr "SHA256") v pk) = pk := by
  by_cases hv : v = []
  · rw [if_pos hv]
  · rw [if_neg hv]
    rfl

/-- C1 (amended): for every well-formed record (clean single-line ASCII
values, non-empty name/version/architecture, non-negative installed size),
re-parsing the rendered control stanza succeeds and restores every field the
parser recognizes — but Size, MD5sum, SHA1, SHA256 and Filename come back as
their zero values, because `parseControl` has no case for them. -/
theorem control_roundtrip_amended (p : Package) (h : WellFormed p) :
    parseControl (ControlString p) =
      Except.ok { p with Size := 0, MD5sum := [], SHA1 := [], SHA256 := [], Filename := [] } := by
  obtain ⟨hn1, hn2, hv1, hv2, ha1, ha2, hm, hd, hdep, hpre, hrcm, hsug, hcnf, hprv,
    hrpl, hsec, hpri, hhom, hfn, hmd5, hsh1, hsh2, hi0, hiM⟩ := h
  have hgood : ∀ pr ∈ allPairs p,
      (pr.1 ≠ [] ∧ (58:Nat) ∉ pr.1 ∧ (10:Nat) ∉ pr.1 ∧
        pr.1.head? ≠ some 32 ∧ pr.1.head? ≠ some 9) ∧
      (pr.2 = [] ∨ (trimSpace pr.2 = pr.2 ∧ (10:Nat) ∉ pr.2)) := by
    intro pr hpr
    simp only [allPairs, List.mem_cons, List.not_mem_nil, or_false] at hpr
    rcases hpr with rfl|rfl|rfl|rfl|rfl|rfl|rfl|rfl|rfl|rfl|rfl|rfl|rfl|rfl|rfl|rfl|rfl|rfl|rfl|rfl|rfl
    · exact ⟨by dsimp only; decide, Or.inr ⟨hn2.2.1, hn2.2.2.1⟩⟩
    · exact ⟨by dsimp only; decide, Or.inr ⟨hv2.2.1, hv2.2.2.1⟩⟩
    · exact ⟨by dsimp only; decide, Or.inr ⟨ha2.2.1, ha2.2.2.1⟩⟩
    · exact ⟨by dsimp only; decide, Or.inr ⟨hm.2.1, hm.2.2.1⟩⟩
    · by_cases hI : (0:Int) < p.InstalledSize
      · exact ⟨by dsimp only; decide, Or.inr ⟨by dsimp only; rw [if_pos hI]; exact (formatInt_clean p.InstalledSize).1,
          by dsimp only; rw [if_pos hI]; exact (formatInt_clean p.InstalledSize).2⟩⟩
      · exact ⟨by dsimp only; decide, Or.inl (by dsimp only; rw [if_neg hI])⟩
    · exact ⟨by dsimp only; decide, Or.inr ⟨hpre.2.1, hpre.2.2.1⟩⟩
    · exact ⟨by dsimp only; decide, Or.inr ⟨hdep.2.1, hdep.2.2.1⟩⟩
    · exact ⟨by dsimp only; decide, Or.inr ⟨hrcm.2.1, hrcm.2.2.1⟩⟩
    · exact ⟨by dsimp only; decide, Or.inr ⟨hsug.2.1, hsug.2.2.1⟩⟩
    · exact ⟨by dsimp only; decide, Or.inr ⟨hcnf.2.1, hcnf.2.2.1⟩⟩
    · exact ⟨by dsimp only; decide, Or.inr ⟨hprv.2.1, hprv.2.2.1⟩⟩
    · exact ⟨by dsimp only; decide, Or.inr ⟨hrpl.2.1, hrpl.2.2.1⟩⟩
    · exact ⟨by dsimp only; decide, Or.inr ⟨hsec.2.1, hsec.2.2.1⟩⟩
    · exact ⟨by dsimp only; decide, Or.inr ⟨hpri.2.1, hpri.2.2.1⟩⟩
    · exact ⟨by dsimp only; decide, Or.inr ⟨hhom.2.1, hhom.2.2.1⟩⟩
    · exact ⟨by dsimp only; decide, Or.inr ⟨hfn.2.1, hfn.2.2.1⟩⟩
    · exact ⟨by dsimp only; decide, Or.inr ⟨(formatInt_clean p.Size).1, (formatInt_clean p.Size).2⟩⟩
    · exact ⟨by dsimp only; decide, Or.inr ⟨hmd5.2.1, hmd5.2.2.1⟩⟩
    · exact ⟨by dsimp only; decide, Or.inr ⟨hsh1.2.1, hsh1.2.2.1⟩⟩
    · exact ⟨by dsimp only; decide, Or.inr ⟨hsh2.2.1, hsh2.2.2.1⟩⟩
    · exact ⟨by dsimp only; decide, Or.inr ⟨hd.2.1, hd.2.2.1⟩⟩
  have hfold : (allPairs p).foldl
        (fun pk pr => if pr.2 = [] then pk else applySave pr.1 pr.2 pk) emptyPackage
      = { p with Size := 0, MD5sum := [], SHA1 := [], SHA256 := [], Filename := [] } := by
    simp only [allPairs, List.foldl]
    simp only [saveSkip_Package, saveSkip_Version, saveSkip_Architecture, saveSkip_Maintainer,
      saveSkip_InstalledSize, saveSkip_PreDepends, saveSkip_Depends, saveSkip_Recommends,
      saveSkip_Suggests, saveSkip_Conflicts, saveSkip_Provides, saveSkip_Replaces,
      saveSkip_Section, saveSkip_Priority, saveSkip_Homepage, saveSkip_Filename,
      saveSkip_Size, saveSkip_MD5sum, saveSkip_SHA1, saveSkip_SHA256, saveSkip_Description]
    simp only [hn2.2.1, hv2.2.1, ha2.2.1, hm.2.1, hd.2.1, hdep.2.1, hpre.2.1, hrcm.2.1,
      hsug.2.1, hcnf.2.1, hprv.2.1, hrpl.2.1, hsec.2.1, hpri.2.1, hhom.2.1]
    by_cases hI : (0:Int) < p.InstalledSize
    · rw [if_pos hI]
      have hfmt : formatInt p.InstalledSize = natDigits p.InstalledSize.toNat := by
        unfold formatInt
        rw [if_neg (by omega)]
      rw [hfmt]
      obtain ⟨hdall, hdval, hdne⟩ := natDigits_spec p.InstalledSize.toNat
      rw [if_neg hdne,
        trimSpace_of_no_ws _ (fun c hc => digit_not_ws (List.all_eq_true.mp hdall c hc)),
        goParse_natDigits p.InstalledSize.toNat (by unfold maxInt64 at hiM ⊢; omega)]
      simp only [ite_nil, emptyPackage]
      rw [Int.toNat_of_nonneg hi0]
    · have hins0 : p.InstalledSize = 0 := le_antisymm (by omega) hi0
      rw [if_neg hI]
      simp [ite_nil, emptyPackage, hins0]
  unfold parseControl ControlString
  dsimp only
  rw [parse_render _ _ hgood,
    show applySave [] [] emptyPackage = emptyPackage from rfl, hfold]
  dsimp only
  rw [if_neg hn1, if_neg hv1, if_neg ha1]

/-! ### Shared repository-layer lemmas (pruner and indexer) -/

theorem mem_foldr_append {α β : Type} (f : α → List β) (l : List α) (x : β)
    (h : x ∈ l.foldr (fun g acc => f g ++ acc) []) : ∃ g ∈ l, x ∈ f g := by
  induction l with
  | nil => simp at h
  | cons g0 rest ih =>
      simp only [List.foldr] at h
      rcases List.mem_append.mp h with h1 | h1
      · exact ⟨g0, by simp, h1⟩
      · obtain ⟨g, hg, hx⟩ := ih h1
        exact ⟨g, by simp [hg], hx⟩

theorem collectDebs_suffix : ∀ (pool : List PoolEntry)
    (entries : List (List Nat × packageFile)),
    collectDebs pool = Except.ok entries →
    ∀ kv ∈ entries, hasSuffix kv.2.Path (bstr ".deb") = true := by
  intro pool
  induction pool with
  | nil =>
      intro entries h kv hkv
      simp only [collectDebs, Except.ok.injEq] at h
      subst h
      simp at hkv
  | cons e es ih =>
      intro entries h kv hkv
      unfold collectDebs at h
      by_cases hs : hasSuffix e.path (bstr ".deb") = false
      · rw [if_pos hs] at h
        exact ih entries h kv hkv
      · rw [if_neg hs] at h
        cases em : e.meta with
        | none =>
            rw [em] at h
            simp at h
        | some pkg =>
            rw [em] at h
            cases hrec : collectDebs es with
            | error p =>
                rw [hrec] at h
                simp at h
            | ok rest =>
                rw [hrec] at h
                simp only [Except.ok.injEq] at h
                subst h
                rcases List.mem_cons.mp hkv with rfl | h2
                · simpa using hs
                · exact ih rest hrec kv h2

theorem addGroup_mem : ∀ (gs : List (List Nat × List packageFile)) (k : List Nat)
    (pf : packageFile) (g : List Nat × List packageFile) (pf' : packageFile),
    g ∈ addGroup gs k pf → pf' ∈ g.2 → (∃ g0 ∈ gs, pf' ∈ g0.2) ∨ pf' = pf := by
  intro gs
  induction gs with
  | nil =>
      intro k pf g pf' hg hpf
      simp only [addGroup, List.mem_singleton] at hg
      subst hg
      simp at hpf
      right
      exact hpf
  | cons g0 gs ih =>
      intro k pf g pf' hg hpf
      obtain ⟨k0, l0⟩ := g0
      unfold addGroup at hg
      by_cases hk : k0 = k
      · rw [if_pos hk] at hg
        rcases List.mem_cons.mp hg with rfl | hgs
        · rcases List.mem_append.mp hpf with h1 | h1
          · exact Or.inl ⟨(k0, l0), by simp, h1⟩
          · right
            simpa using h1
        · exact Or.inl ⟨g, by simp [hgs], hpf⟩
      · rw [if_neg hk] at hg
        rcases List.mem_cons.mp hg with rfl | hgs
        · exact Or.inl ⟨(k0, l0), by simp, hpf⟩
        · rcases ih k pf g pf' hgs hpf with ⟨g1, hg1, hpf1⟩ | he
          · exact Or.inl ⟨g1, by simp [hg1], hpf1⟩
          · exact Or.inr he

theorem groupFold_mem : ∀ (entries : List (List Nat × packageFile))
    (gs0 : List (List Nat × List packageFile)) (g : List Nat × List packageFile)
    (pf' : packageFile),
    g ∈ entries.foldl (fun gs kv => addGroup gs kv.1 kv.2) gs0 → pf' ∈ g.2 →
    (∃ g0 ∈ gs0, pf' ∈ g0.2) ∨ (∃ kv ∈ entries, pf' = kv.2) := by
  intro entries
  induction entries with
  | nil =>
      intro gs0 g pf' hg hpf
      exact Or.inl ⟨g, hg, hpf⟩
  | cons kv rest ih =>
      intro gs0 g pf' hg hpf
      simp only [List.foldl] at hg
      rcases ih _ g pf' hg hpf with ⟨g0, hg0, hpf0⟩ | ⟨kv1, hkv1, he⟩
      · rcases addGroup_mem gs0 kv.1 kv.2 g0 pf' hg0 hpf0 with h2 | h2
        · exact Or.inl h2
        · exact Or.inr ⟨kv, by simp, h2⟩
      · exact Or.inr ⟨kv1, by simp [hkv1], he⟩

theorem groupPackages_mem (entries : List (List Nat × packageFile))
    (g : List Nat × List packageFile) (pf' : packageFile)
    (hg : g ∈ groupPackages entries) (hpf : pf' ∈ g.2) :
    ∃ kv ∈ entries, pf' = kv.2 := by
  rcases groupFold_mem entries [] g pf' hg hpf with ⟨g0, hg0, _⟩ | h
  · simp at hg0
  · exact h

theorem selMax_spec : ∀ (l : List packageFile) (c : packageFile),
    ((selMax c l).1 :: (selMax c l).2).Perm (c :: l) ∧
    0 ≤ Compare (selMax c l).1.Version c.Version ∧
    (∀ z ∈ (selMax c l).2, 0 ≤ Compare (selMax c l).1.Version z.Version) ∧
    (selMax c l).2.length = l.length := by
  intro l
  induction l with
  | nil =>
      intro c
      refine ⟨by simp [selMax], ?_, by simp [selMax], by simp [selMax]⟩
      rw [show (selMax c []).1 = c from rfl, Compare_refl]
  | cons y ys ih =>
      intro c
      by_cases hlt : Compare c.Version y.Version < 0
      · have e : selMax c (y :: ys) = ((selMax y ys).1, c :: (selMax y ys).2) := by
          simp only [selMax]
          rw [if_pos hlt]
        obtain ⟨hperm, hge, hall, hlen⟩ := ih y
        rw [e]
        refine ⟨?_, ?_, ?_, by simpa using hlen⟩
        · exact (List.Perm.swap c (selMax y ys).1 (selMax y ys).2).trans (hperm.cons c)
        · exact Compare_ge_trans hge (Compare_neg_flip hlt)
        · intro z hz
          rcases List.mem_cons.mp hz with rfl | hz2
          · exact Compare_ge_trans hge (Compare_neg_flip hlt)
          · exact hall z hz2
      · have e : selMax c (y :: ys) = ((selMax c ys).1, y :: (selMax c ys).2) := by
          simp only [selMax]
          rw [if_neg hlt]
        obtain ⟨hperm, hge, hall, hlen⟩ := ih c
        rw [e]
        refine ⟨?_, hge, ?_, by simpa using hlen⟩
        · exact ((List.Perm.swap y (selMax c ys).1 (selMax c ys).2).trans
            (hperm.cons y)).trans (List.Perm.swap c y ys)
        · intro z hz
          rcases List.mem_cons.mp hz with rfl | hz2
          · exact Compare_ge_trans hge (Compare_not_lt_ge hlt)
          · exact hall z hz2

theorem sortGo_perm : ∀ (fuel : Nat) (l : List packageFile), (sortGo fuel l).Perm l := by
  intro fuel
  induction fuel with
  | zero =>
      intro l
      exact List.Perm.refl l
  | succ f ihf =>
      intro l
      cases l with
      | nil => exact List.Perm.refl []
      | cons x xs =>
          have e : sortGo (f + 1) (x :: xs) = (selMax x xs).1 :: sortGo f (selMax x xs).2 := rfl
          rw [e]
          exact ((ihf _).cons _).trans (selMax_spec xs x).1

theorem sortGo_sorted : ∀ (fuel : Nat) (l : List packageFile), l.length ≤ fuel →
    (sortGo fuel l).Pairwise (fun a b => 0 ≤ Compare a.Version b.Version) := by
  intro fuel
  induction fuel with
  | zero =>
      intro l hl
      have : l = [] := List.length_eq_zero.mp (by omega)
      subst this
      simp [sortGo]
  | succ f ihf =>
      intro l hl
      cases l with
      | nil => simp [sortGo]
      | cons x xs =>
          have e : sortGo (f + 1) (x :: xs) = (selMax x xs).1 :: sortGo f (selMax x xs).2 := rfl
          rw [e]
          obtain ⟨hperm, hge, hall, hlen⟩ := selMax_spec xs x
          refine List.Pairwise.cons ?_ (ihf _ (by simp at hl; omega))
          intro z hz
          exact hall z ((sortGo_perm f _).mem_iff.mp hz)

theorem sortPackageFiles_perm (l : List packageFile) : (sortPackageFiles l).Perm l :=
  sortGo_perm l.length l

theorem sortPackageFiles_sorted (l : List packageFile) :
    (sortPackageFiles l).Pairwise (fun a b => 0 ≤ Compare a.Version b.Version) :=
  sortGo_sorted l.length l (le_refl _)

theorem Prune_ok (opts : PruneOptions) (pool : List PoolEntry)
    (entries : List (List Nat × packageFile))
    (hcol : collectDebs pool = Except.ok entries) :
    Prune opts pool = Except.ok
      (⟨(groupPackages entries).foldr (fun g acc =>
           ((sortPackageFiles g.2).drop
             (if opts.KeepVersions < 1 then 5 else opts.KeepVersions).toNat).map
             packageFile.Path ++ acc) [],
        (groupPackages entries).foldr (fun g acc =>
           ((sortPackageFiles g.2).take
             (if opts.KeepVersions < 1 then 5 else opts.KeepVersions).toNat).map
             packageFile.Path ++ acc) []⟩,
       if opts.DryRun then pool
       else cleanEmptyDirs (pool.filter (fun e =>
         !(((groupPackages entries).foldr (fun g acc =>
             ((sortPackageFiles g.2).drop
               (if opts.KeepVersions < 1 then 5 else opts.KeepVersions).toNat).map
               packageFile.Path ++ acc) []).contains e.path)))) := by
  unfold Prune
  rw [hcol]

theorem Prune_err (opts : PruneOptions) (pool : List PoolEntry) (p : List Nat)
    (hcol : collectDebs pool = Except.error p) :
    Prune opts pool = Except.error p := by
  unfold Prune
  rw [hcol]

theorem deleted_suffix (keepN : Nat) (entries : List (List Nat × packageFile))
    (hsuf : ∀ kv ∈ entries, hasSuffix kv.2.Path (bstr ".deb") = true) :
    ∀ pth ∈ (groupPackages entries).foldr
        (fun g acc => ((sortPackageFiles g.2).drop keepN).map packageFile.Path ++ acc) [],
      hasSuffix pth (bstr ".deb") = true := by
  intro pth hpth
  obtain ⟨g, hg, hmem⟩ := mem_foldr_append _ _ _ hpth
  obtain ⟨pf, hpf, rfl⟩ := List.mem_map.mp hmem
  have h1 : pf ∈ sortPackageFiles g.2 := List.drop_subset _ _ hpf
  have h2 : pf ∈ g.2 := (sortPackageFiles_perm g.2).mem_iff.mp h1
  obtain ⟨kv, hkv, rfl⟩ := groupPackages_mem entries g pf hg h2
  exact hsuf kv hkv

/-! ## C10: Prune only touches .deb files -/

/-- C10: whenever `Prune` succeeds, every path in its Deleted list (the
paths it removes when DryRun is off) ends in ".deb", and every regular file
that does not end in ".deb" is still present afterwards (directory cleanup
never removes regular files: `cleanEmptyDirs` guards every removal with
`info.IsDir()`). -/
theorem prune_deletes_only_deb_files (opts : PruneOptions) (pool : List PoolEntry)
    (res : PruneResult) (fs : List PoolEntry)
    (h : Prune opts pool = Except.ok (res, fs)) :
    (∀ pth ∈ res.Deleted, hasSuffix pth (bstr ".deb") = true) ∧
    (∀ e ∈ pool, hasSuffix e.path (bstr ".deb") = false → e ∈ fs) := by
  cases hcol : collectDebs pool with
  | error p =>
      rw [Prune_err opts pool p hcol] at h
      simp at h
  | ok entries =>
      rw [Prune_ok opts pool entries hcol] at h
      simp only [Except.ok.injEq, Prod.mk.injEq] at h
      obtain ⟨hres, hfs⟩ := h
      have hdel : ∀ pth ∈ (groupPackages entries).foldr (fun g acc =>
          ((sortPackageFiles g.2).drop
            (if opts.KeepVersions < 1 then 5 else opts.KeepVersions).toNat).map
            packageFile.Path ++ acc) [],
          hasSuffix pth (bstr ".deb") = true :=
        deleted_suffix _ entries (collectDebs_suffix pool entries hcol)
      constructor
      · intro pth hpth
        rw [← hres] at hpth
        exact hdel pth hpth
      · intro e he hnd
        rw [← hfs]
        by_cases hdry : opts.DryRun = true
        · rw [if_pos hdry]
          exact he
        · rw [if_neg hdry]
          unfold cleanEmptyDirs
          rw [List.mem_filter]
          refine ⟨he, ?_⟩
          have hnm : e.path ∉ (groupPackages entries).foldr (fun g acc =>
              ((sortPackageFiles g.2).drop
                (if opts.KeepVersions < 1 then 5 else opts.KeepVersions).toNat).map
                packageFile.Path ++ acc) [] := by
            intro hmem
            have := hdel e.path hmem
            rw [hnd] at this
            exact Bool.false_ne_true this
          rw [Bool.not_eq_true']
          simpa using hnm

/-- Witness for C10: the dry-run scenario pool with a non-.deb file added
keeps that file. -/
theorem prune_deletes_only_deb_files_witness :
    (∀ pth ∈ (PruneResult.mk [bstr "pool/main/p/pkg/pkg_1.0_amd64.deb"]
        [bstr "pool/main/p/pkg/pkg_2.0_amd64.deb",
         bstr "pool/main/p/pkg/pkg_1.5_amd64.deb"]).Deleted,
      hasSuffix pth (bstr ".deb") = true) ∧
    (∀ e ∈ scenarioPool, hasSuffix e.path (bstr ".deb") = false →
      e ∈ scenarioPool) :=
  prune_deletes_only_deb_files ⟨2, true⟩ scenarioPool _ _ (by decide)

/-! ## C6: Prune policy -/

/-- C6 (amended): `sortPackageFiles` orders every group by version
descending under `Compare` (a permutation, pairwise non-increasing);
a non-positive keep count behaves exactly as keep count 5; and on the
three-version scenario pool with keepCount 2 and dryRun on, versions 2.0
and 1.5 are kept, 1.0 is deleted, and the file list on disk is unchanged
(the 1.0 file still exists).  The grouping key is the concatenated string
`name_architecture`, not the pair (name, architecture): names containing an
underscore can conflate distinct pairs (see the counterexample). -/
theorem prune_keep_policy_amended :
    (∀ fs : List packageFile, (sortPackageFiles fs).Perm fs ∧
       (sortPackageFiles fs).Pairwise (fun a b => 0 ≤ Compare a.Version b.Version)) ∧
    (∀ (opts : PruneOptions) (pool : List PoolEntry), opts.KeepVersions < 1 →
       Prune opts pool = Prune ⟨5, opts.DryRun⟩ pool) ∧
    Prune ⟨2, true⟩ scenarioPool =
      Except.ok (⟨[bstr "pool/main/p/pkg/pkg_1.0_amd64.deb"],
                  [bstr "pool/main/p/pkg/pkg_2.0_amd64.deb",
                   bstr "pool/main/p/pkg/pkg_1.5_amd64.deb"]⟩,
                 scenarioPool) := by
  refine ⟨fun fs => ⟨sortPackageFiles_perm fs, sortPackageFiles_sorted fs⟩, ?_, by decide⟩
  intro opts pool h
  unfold Prune
  rw [if_pos h,
    if_neg (show ¬ (PruneOptions.mk 5 opts.DryRun).KeepVersions < 1 by dsimp only; decide)]

/-- Witness for C6: the default rule applied at keep count 0. -/
theorem prune_keep_policy_amended_witness :
    ((sortPackageFiles [⟨bstr "a", bstr "1.0"⟩, ⟨bstr "b", bstr "2.0"⟩]).Perm
       [⟨bstr "a", bstr "1.0"⟩, ⟨bstr "b", bstr "2.0"⟩]) ∧
    Prune ⟨0, true⟩ scenarioPool = Prune ⟨5, true⟩ scenarioPool :=
  ⟨(prune_keep_policy_amended.1 _).1,
   prune_keep_policy_amended.2.1 ⟨0, true⟩ scenarioPool (by decide)⟩

/-- C6 counterexample: the code keys groups by the concatenated string
`name + "_" + architecture`.  The records ("a", "b_c") and ("a_b", "c") have
distinct (name, architecture) pairs but the same key "a_b_c", so with
keepCount 1 the code deletes the older one, whereas grouping by the pair —
as the claim words it — would delete nothing. -/
theorem prune_pair_grouping_counterexample :
    Prune ⟨1, true⟩ collidePool =
      Except.ok (⟨[bstr "pool/main/a/a/a_1.0_b-c.deb"],
                  [bstr "pool/main/a/a_b/a_b_2.0_c.deb"]⟩, collidePool) ∧
    prunePairSpecDeleted ⟨1, true⟩ collidePool = Except.ok [] ∧
    (mkPkg "a" "1.0" "b_c").Name ≠ (mkPkg "a_b" "2.0" "c").Name := by
  refine ⟨by decide, by decide, by decide⟩

/-! ## C7: pool scan filter and order -/

theorem lexLt_irrefl (a : List Nat) : lexLt a a = false := by
  induction a with
  | nil => rfl
  | cons x xs ih => simp [lexLt, ih]

theorem lexLt_asymm : ∀ {a b : List Nat}, lexLt a b = true → lexLt b a = false := by
  intro a
  induction a with
  | nil =>
      intro b h
      cases b with
      | nil => rfl
      | cons c cs => rfl
  | cons x xs ih =>
      intro b h
      cases b with
      | nil => exact absurd h (by simp [lexLt])
      | cons c cs =>
          unfold lexLt at h ⊢
          by_cases h1 : x < c
          · rw [if_neg (by omega), if_pos (by omega)]
          · rw [if_neg h1] at h
            by_cases h2 : c < x
            · rw [if_pos h2] at h
              exact absurd h (by simp)
            · rw [if_neg h2] at h
              rw [if_neg h2, if_neg h1]
              exact ih h

theorem lexLt_total : ∀ {a b : List Nat}, a ≠ b → lexLt a b = true ∨ lexLt b a = true := by
  intro a
  induction a with
  | nil =>
      intro b h
      cases b with
      | nil => exact absurd rfl h
      | cons c cs => exact Or.inl rfl
  | cons x xs ih =>
      intro b h
      cases b with
      | nil => exact Or.inr rfl
      | cons c cs =>
          rcases lt_trichotomy x c with h1 | h1 | h1
          · exact Or.inl (by unfold lexLt; rw [if_pos h1])
          · subst h1
            have hne : xs ≠ cs := by
              intro he
              exact h (by rw [he])
            rcases ih hne with h2 | h2
            · exact Or.inl (by unfold lexLt; rw [if_neg (by omega), if_neg (by omega)]; exact h2)
            · exact Or.inr (by unfold lexLt; rw [if_neg (by omega), if_neg (by omega)]; exact h2)
          · exact Or.inr (by unfold lexLt; rw [if_pos h1])

theorem lexLt_trans : ∀ {a b c : List Nat},
    lexLt a b = true → lexLt b c = true → lexLt a c = true := by
  intro a
  induction a with
  | nil =>
      intro b c h1 h2
      cases b with
      | nil => exact h2
      | cons y ys =>
          cases c with
          | nil => exact absurd h2 (by simp [lexLt])
          | cons z zs => rfl
  | cons x xs ih =>
      intro b c h1 h2
      cases b with
      | nil => exact absurd h1 (by simp [lexLt])
      | cons y ys =>
          cases c with
          | nil => exact absurd h2 (by simp [lexLt])
          | cons z zs =>
              unfold lexLt at h1 h2 ⊢
              by_cases hxy : x < y
              · rw [if_pos hxy] at h1
                by_cases hyz : y < z
                · rw [if_pos (by omega)]
                · rw [if_neg hyz] at h2
                  by_cases hzy : z < y
                  · rw [if_pos hzy] at h2
                    exact absurd h2 (by simp)
                  · rw [if_pos (by omega)]
              · rw [if_neg hxy] at h1
                by_cases hyx : y < x
                · rw [if_pos hyx] at h1
                  exact absurd h1 (by simp)
                · rw [if_neg hyx] at h1
                  by_cases hyz : y < z
                  · rw [if_pos hyz] at h2
                    rw [if_pos (by omega)]
                  · rw [if_neg hyz] at h2
                    by_cases hzy : z < y
                    · rw [if_pos hzy] at h2
                      exact absurd h2 (by simp)
                    · rw [if_neg hzy] at h2
                      rw [if_neg (by omega), if_neg (by omega)]
                      exact ih h1 h2

theorem scanOrd_total : ∀ x y : Package, scanLess y x = false ∨ scanLess x y = false := by
  intro x y
  unfold scanLess
  by_cases hn : y.Name = x.Name
  · rw [if_pos hn, if_pos hn.symm]
    by_cases h1 : 0 < Compare y.Version x.Version
    · right
      have := Compare_antisym x.Version y.Version
      simp only [decide_eq_false_iff_not]
      omega
    · left
      simp only [decide_eq_false_iff_not]
      omega
  · rw [if_neg hn, if_neg (fun hh => hn hh.symm)]
    by_cases h2 : lexLt y.Name x.Name = true
    · right
      exact lexLt_asymm h2
    · left
      cases hlv : lexLt y.Name x.Name
      · rfl
      · exact absurd hlv h2

theorem scanOrd_trans : ∀ x y z : Package,
    scanLess y x = false → scanLess z y = false → scanLess z x = false := by
  intro x y z h1 h2
  unfold scanLess at h1 h2 ⊢
  by_cases hyx : y.Name = x.Name <;> by_cases hzy : z.Name = y.Name
  · rw [if_pos hyx] at h1
    rw [if_pos hzy] at h2
    rw [if_pos (hzy.trans hyx)]
    simp only [decide_eq_false_iff_not] at h1 h2 ⊢
    have hle1 : Compare y.Version x.Version ≤ 0 := by omega
    have hle2 : Compare z.Version y.Version ≤ 0 := by omega
    have := Compare_le_trans hle2 hle1
    omega
  · rw [if_pos hyx] at h1
    rw [if_neg hzy] at h2
    rw [if_neg (fun hh => hzy (hh.trans hyx.symm)), ← hyx]
    exact h2
  · rw [if_neg hyx] at h1
    rw [if_pos hzy] at h2
    rw [if_neg (fun hh => hyx (hzy.symm.trans hh)), hzy]
    exact h1
  · rw [if_neg hyx] at h1
    rw [if_neg hzy] at h2
    have hxy : lexLt x.Name y.Name = true := by
      rcases lexLt_total (fun hh => hyx hh.symm) with hh | hh
      · exact hh
      · rw [hh] at h1
        exact absurd h1 (by simp)
    have hyz : lexLt y.Name z.Name = true := by
      rcases lexLt_total (fun hh => hzy hh.symm) with hh | hh
      · exact hh
      · rw [hh] at h2
        exact absurd h2 (by simp)
    have hxz : lexLt x.Name z.Name = true := lexLt_trans hxy hyz
    by_cases hzx : z.Name = x.Name
    · exfalso
      rw [hzx] at hxz
      have := lexLt_asymm hxz
      rw [this] at hxz
      exact Bool.false_ne_true hxz
    · rw [if_neg hzx]
      exact lexLt_asymm hxz

theorem scanCollect_arch : ∀ (arch : List Nat) (pool : List PoolEntry)
    (pkgs : List Package), scanCollect arch pool = Except.ok pkgs →
    ∀ q ∈ pkgs, q.Architecture = arch ∨ q.Architecture = bstr "all" := by
  intro arch pool
  induction pool with
  | nil =>
      intro pkgs h q hq
      simp only [scanCollect, Except.ok.injEq] at h
      subst h
      simp at hq
  | cons e es ih =>
      intro pkgs h q hq
      unfold scanCollect at h
      by_cases hs : hasSuffix e.path (bstr ".deb") = false
      · rw [if_pos hs] at h
        exact ih pkgs h q hq
      · rw [if_neg hs] at h
        cases em : e.meta with
        | none =>
            rw [em] at h
            simp at h
        | some pkg =>
            rw [em] at h
            dsimp only at h
            by_cases hf : pkg.Architecture ≠ arch ∧ pkg.Architecture ≠ bstr "all"
            · rw [if_pos hf] at h
              exact ih pkgs h q hq
            · rw [if_neg hf] at h
              cases hrec : scanCollect arch es with
              | error p =>
                  rw [hrec] at h
                  simp at h
              | ok rest =>
                  rw [hrec] at h
                  simp only [Except.ok.injEq] at h
                  subst h
                  rcases List.mem_cons.mp hq with rfl | hq2
                  · have harch : pkg.Architecture = arch ∨ pkg.Architecture = bstr "all" := by
                      by_contra hnone
                      push_neg at hnone
                      exact hf ⟨hnone.1, hnone.2⟩
                    exact harch
                  · exact ih rest hrec q hq2

theorem scanPool_ok (arch : List Nat) (pool : List PoolEntry) (pkgs : List Package)
    (hcol : scanCollect arch pool = Except.ok pkgs) :
    scanPool arch pool =
      Except.ok (pkgs.insertionSort (fun x y => scanLess y x = false)) := by
  unfold scanPool
  rw [hcol]

theorem scanPool_err (arch : List Nat) (pool : List PoolEntry) (p : List Nat)
    (hcol : scanCollect arch pool = Except.error p) :
    scanPool arch pool = Except.error p := by
  unfold scanPool
  rw [hcol]

/-- C7: whenever the pool scan for a target architecture succeeds, every
retained record has that architecture or the sentinel "all", and the list is
sorted with name ascending (byte-wise, as Go string `<`) and, within equal
names, version descending under `Compare`. -/
theorem scanPool_filter_sorted (arch : List Nat) (pool : List PoolEntry)
    (l : List Package) (h : scanPool arch pool = Except.ok l) :
    (∀ q ∈ l, q.Architecture = arch ∨ q.Architecture = bstr "all") ∧
    l.Pairwise (fun x y => lexLt x.Name y.Name = true ∨
      (x.Name = y.Name ∧ 0 ≤ Compare x.Version y.Version)) := by
  cases hcol : scanCollect arch pool with
  | error p =>
      rw [scanPool_err arch pool p hcol] at h
      simp at h
  | ok pkgs =>
      rw [scanPool_ok arch pool pkgs hcol] at h
      simp only [Except.ok.injEq] at h
      subst h
      constructor
      · intro q hq
        exact scanCollect_arch arch pool pkgs hcol q
          ((List.perm_insertionSort _ pkgs).mem_iff.mp hq)
      · have hs := @List.sorted_insertionSort Package (fun x y => scanLess y x = false)
          (fun a b => instDecidableEqBool _ _) ⟨scanOrd_total⟩
          ⟨fun a b c hab hbc => scanOrd_trans a b c hab hbc⟩ pkgs
        refine hs.imp ?_
        intro x y hxy
        unfold scanLess at hxy
        by_cases hn : y.Name = x.Name
        · rw [if_pos hn] at hxy
          simp only [decide_eq_false_iff_not] at hxy
          refine Or.inr ⟨hn.symm, ?_⟩
          have := Compare_antisym x.Version y.Version
          omega
        · rw [if_neg hn] at hxy
          left
          rcases lexLt_total (fun hh => hn hh.symm) with hh | hh
          · exact hh
          · rw [hh] at hxy
            exact absurd hxy (by simp)

/-- Witness for C7 on the scenario pool at architecture amd64. -/
theorem scanPool_filter_sorted_witness :
    (∀ q ∈ [{ mkPkg "pkg" "2.0" "amd64" with
                Filename := bstr "pool/main/p/pkg/pkg_2.0_amd64.deb" },
            { mkPkg "pkg" "1.5" "amd64" with
                Filename := bstr "pool/main/p/pkg/pkg_1.5_amd64.deb" },
            { mkPkg "pkg" "1.0" "amd64" with
                Filename := bstr "pool/main/p/pkg/pkg_1.0_amd64.deb" }],
      q.Architecture = bstr "amd64" ∨ q.Architecture = bstr "all") ∧
    List.Pairwise (fun x y => lexLt x.Name y.Name = true ∨
      (x.Name = y.Name ∧ 0 ≤ Compare x.Version y.Version))
      [{ mkPkg "pkg" "2.0" "amd64" with
          Filename := bstr "pool/main/p/pkg/pkg_2.0_amd64.deb" },
       { mkPkg "pkg" "1.5" "amd64" with
          Filename := bstr "pool/main/p/pkg/pkg_1.5_amd64.deb" },
       { mkPkg "pkg" "1.0" "amd64" with
          Filename := bstr "pool/main/p/pkg/pkg_1.0_amd64.deb" }] :=
  scanPool_filter_sorted (bstr "amd64") scenarioPool _ (by decide)

/-- Witness for C1 at the concrete well-formed record `exPkg`. -/
theorem control_roundtrip_amended_witness :
    parseControl (ControlString exPkg) =
      Except.ok { exPkg with Size := 0, MD5sum := [], SHA1 := [], SHA256 := [], Filename := [] } :=
  control_roundtrip_amended exPkg (by decide)

/-- Witness for C4: the three strict-weak-order properties instantiated at
concrete version strings. -/
theorem compare_strict_weak_order_witness :
    Compare (bstr "1.0") (bstr "1.0") = 0 ∧
    Compare (bstr "1.0") (bstr "2.0") = -(Compare (bstr "2.0") (bstr "1.0")) ∧
    Compare (bstr "1.0") (bstr "2.0") ≤ 0 :=
  ⟨compare_strict_weak_order.1 _,
   compare_strict_weak_order.2.1 _ _,
   compare_strict_weak_order.2.2 (bstr "1.0") (bstr "1.5") (bstr "2.0") (by decide) (by decide)⟩

end Plow
